import Mathlib

/-!
Shallow embedding of `src/horse_moves.py`.

A Python `ChessboardLocation` object holds integer coordinates `x`, `y` and a
mutable dict `previous_locations` keyed by the textual form of each predecessor
(insertion-ordered).  Objects are only mutated while they sit in the
`next_moves` dict of a single `possible_next_moves` call, so the object graph
is modelled as an inductive value: each location carries the list of its
predecessor locations (the dict values, in insertion order).  The predecessor
list is a mutually inductive list type `LocationList` (isomorphic to
`List ChessboardLocation` through `toList` and `ofList`) so that the route
enumeration can recurse structurally through the graph.

Python dicts keyed by `str(location)` become insertion-ordered association
lists `List (String × ChessboardLocation)`; dict assignment replaces the value
in place when the key exists and appends otherwise.

The `while not self.solved()` loop of `find_shortest_solutions` has no bound in
the source (it would spin forever on an unreachable target), so it is embedded
with explicit fuel returning `Option`; `none` models non-termination within the
given fuel.  Python `KeyError` / failed `assert` are modelled as `none`.
-/

mutual

inductive ChessboardLocation : Type where
  | mk (x : Int) (y : Int) (previous_locations : LocationList)

inductive LocationList : Type where
  | nil
  | cons (head : ChessboardLocation) (tail : LocationList)

end

def LocationList.toList : LocationList → List ChessboardLocation
  | .nil => []
  | .cons h t => h :: t.toList

def LocationList.ofList : List ChessboardLocation → LocationList
  | [] => .nil
  | h :: t => .cons h (LocationList.ofList t)

namespace ChessboardLocation

def x : ChessboardLocation → Int
  | mk a _ _ => a

def y : ChessboardLocation → Int
  | mk _ b _ => b

def previous_locations : ChessboardLocation → LocationList
  | mk _ _ ps => ps

/-- Python `__str__`: `chr(65 + self.x) + str(1 + self.y)`. -/
def to_string (l : ChessboardLocation) : String :=
  (Char.ofNat (65 + l.x).toNat).toString ++ toString (1 + l.y)

/-- Python `is_valid`: `(self.x == self.x & 7) and (self.y == self.y & 7)`,
with `&` the two's-complement bitwise and of Python ints (`Int.land`). -/
def is_valid (l : ChessboardLocation) : Bool :=
  (l.x == Int.land l.x 7) && (l.y == Int.land l.y 7)

/-- Python `add_previous`: `self.previous_locations[str(previous_location)] = previous_location`.
Dict assignment: replace the value in place when the key is present, else
append (the key of every stored predecessor is its own textual form). -/
def add_previous (l p : ChessboardLocation) : ChessboardLocation :=
  mk l.x l.y (LocationList.ofList
    (if l.previous_locations.toList.any (fun q => q.to_string == p.to_string) then
      l.previous_locations.toList.map (fun q => if q.to_string == p.to_string then p else q)
    else l.previous_locations.toList ++ [p]))

/-- Python `get_previous_locations`: `self.previous_locations.values()`. -/
def get_previous_locations (l : ChessboardLocation) : List ChessboardLocation :=
  l.previous_locations.toList

/-- Python `int(c)` on a one-character string: its decimal value for a digit,
`ValueError` (here `none`) otherwise. -/
def int_of_digit (c : Char) : Option Int :=
  if c.isDigit then some ((c.toNat : Int) - 48) else none

/-- Python `ChessboardLocation(text)` for a textual coordinate:
`x = ord(text[0]) - 65`, `y = int(text[1]) - 1`, no predecessor.
Indexing a string shorter than 2 raises `IndexError` and `int` on a non-digit
raises `ValueError`; both are modelled as `none`. -/
def of_text (t : String) : Option ChessboardLocation :=
  match t.toList with
  | c0 :: c1 :: _ =>
    (int_of_digit c1).map (fun d => mk ((c0.toNat : Int) - 65) (d - 1) .nil)
  | _ => none

end ChessboardLocation

mutual

/-- Python `list_routes`: for every predecessor, extend each of its routes by
this location; an empty result (no predecessors) yields the singleton route
`[[self]]` (Python `return result or [[self]]`). -/
def ChessboardLocation.list_routes : ChessboardLocation → List (List ChessboardLocation)
  | .mk a b ps =>
    let result := routes_via_previous (ChessboardLocation.mk a b ps) ps
    if result.isEmpty then [[ChessboardLocation.mk a b ps]] else result

/-- Body of the nested `for previous ...: for route in previous.list_routes():`
loops of Python `list_routes`, appending `self` to each enumerated route. -/
def routes_via_previous (self : ChessboardLocation) :
    LocationList → List (List ChessboardLocation)
  | .nil => []
  | .cons p rest =>
    (p.list_routes.map (fun route => route ++ [self])) ++ routes_via_previous self rest

end

mutual

/-- Number of location nodes of the predecessor tree rooted at a location;
only a termination measure for the backward pruning loop of `solve`. -/
def node_count : ChessboardLocation → Nat
  | .mk _ _ ps => 1 + node_count_list ps

/-- Total node count of the trees of a `LocationList`. -/
def node_count_list : LocationList → Nat
  | .nil => 0
  | .cons h t => node_count h + node_count_list t

end

/-- Every route of `l` has length `n`. -/
def routes_len (l : ChessboardLocation) (n : Nat) : Prop :=
  ∀ r ∈ l.list_routes, r.length = n

/-- Every route of `l` starts at `s`. -/
def routes_head (l s : ChessboardLocation) : Prop :=
  ∀ r ∈ l.list_routes, r.head? = some s

structure HorseMoves where
  start_location : ChessboardLocation
  finish_location : ChessboardLocation
  finish_string : String
  move_tree : List (List ChessboardLocation)
  reached : List (String × ChessboardLocation)

namespace HorseMoves

/-- Python `HorseMoves.__init__`. -/
def init (start_location finish_location : ChessboardLocation) : HorseMoves :=
  { start_location := start_location
    finish_location := finish_location
    finish_string := finish_location.to_string
    move_tree := [[start_location]]
    reached := [(start_location.to_string, start_location)] }

/-- Python `key in dict.keys()` on the association-list dict model. -/
def key_mem (d : List (String × ChessboardLocation)) (k : String) : Bool :=
  d.any (fun kv => kv.1 == k)

/-- Python `solved`: `self.finish_string in self.reached.keys()`. -/
def solved (h : HorseMoves) : Bool :=
  key_mem h.reached h.finish_string

/-- Candidate coordinates generated for one start location, in source order:
`for long_step in [-2, 2]: for short_step in [-1, 1]:` then the two
orientations `[x+long, y+short]`, `[x+short, y+long]`. -/
def candidate_coordinates (l : ChessboardLocation) : List (Int × Int) :=
  ([-2, 2] : List Int).flatMap (fun long_step =>
    ([-1, 1] : List Int).flatMap (fun short_step =>
      [(l.x + long_step, l.y + short_step), (l.x + short_step, l.y + long_step)]))

/-- Body of the innermost loop of `possible_next_moves`, threading the
`next_moves` dict: build the candidate location with the start location as
seeded predecessor, and keep it when valid, unreached and fresh in this call;
a second same-depth arrival instead adds a predecessor to the existing entry. -/
def process_candidate (reached : List (String × ChessboardLocation))
    (start_location : ChessboardLocation)
    (next_moves : List (String × ChessboardLocation)) (c : Int × Int) :
    List (String × ChessboardLocation) :=
  let new_location := ChessboardLocation.mk c.1 c.2 (LocationList.ofList [start_location])
  if new_location.is_valid then
    let s := new_location.to_string
    if key_mem reached s then
      next_moves
    else if key_mem next_moves s then
      next_moves.map (fun kv =>
        if kv.1 == s then (kv.1, kv.2.add_previous start_location) else kv)
    else next_moves ++ [(s, new_location)]
  else next_moves

/-- Python `possible_next_moves` up to the `reached.update`: the `next_moves`
dict built by the nested loops, reading (but not writing) `reached`. -/
def possible_next_moves (reached : List (String × ChessboardLocation))
    (start_locations : List ChessboardLocation) :
    List (String × ChessboardLocation) :=
  start_locations.foldl
    (fun nm sl =>
      (candidate_coordinates sl).foldl (fun nm c => process_candidate reached sl nm c) nm)
    []

/-- Python `self.reached.update(next_moves)`: dict update, replacing values of
existing keys in place and appending fresh keys in order. -/
def dict_update (d nm : List (String × ChessboardLocation)) :
    List (String × ChessboardLocation) :=
  nm.foldl
    (fun d kv =>
      if key_mem d kv.1 then
        d.map (fun kv0 => if kv0.1 == kv.1 then kv else kv0)
      else d ++ [kv])
    d

/-- Python `self.reached[key]` as an optional lookup (`KeyError` is `none`). -/
def dict_get (d : List (String × ChessboardLocation)) (k : String) :
    Option ChessboardLocation :=
  (d.find? (fun kv => kv.1 == k)).map Prod.snd

/-- Python `find_shortest_solutions`: the `while not self.solved()` loop,
carrying the `next_moves` variable, with explicit fuel (the source has no
bound and would loop forever on an unreachable target). -/
def find_shortest_solutions :
    Nat → HorseMoves → List ChessboardLocation → Option HorseMoves
  | fuel, h, next_moves =>
    if h.solved then some h
    else
      match fuel with
      | 0 => none
      | f + 1 =>
        let nm := possible_next_moves h.reached next_moves
        find_shortest_solutions f
          { h with
            move_tree := h.move_tree ++ [nm.map Prod.snd]
            reached := dict_update h.reached nm }
          (nm.map Prod.snd)

/-- Python call `self.find_shortest_solutions()` inside `solve`: the loop is
entered with `next_moves = self.move_tree[-1]`. -/
def run_search (fuel : Nat) (h : HorseMoves) : Option HorseMoves :=
  h.find_shortest_solutions fuel (h.move_tree.getLastD [])

/-- Python `solve`'s backward pruning loop body, with structural fuel: each
pass replaces every location by its (structurally smaller) predecessors, so
any fuel above `(last_locations.map node_count).sum` computes the true
result (shown by `prune_loop_fuel_irrel`); the fuel-0 fallback is unreachable
under adequate fuel. -/
def prune_loop_fuel : Nat → List ChessboardLocation →
    List (List ChessboardLocation) → List (List ChessboardLocation)
  | 0, _, acc => acc
  | n + 1, last_locations, acc =>
    if last_locations.isEmpty then acc
    else
      prune_loop_fuel n
        (last_locations.flatMap ChessboardLocation.get_previous_locations)
        (last_locations :: acc)

/-- Python `solve`'s backward pruning loop: `while last_locations:` prepend the
current set, then replace it by the concatenation of all predecessor lists. -/
def prune_loop (last_locations : List ChessboardLocation)
    (acc : List (List ChessboardLocation)) : List (List ChessboardLocation) :=
  prune_loop_fuel ((last_locations.map node_count).sum + 1) last_locations acc

/-- Python `solve`: run the search, look up the final location, prune the move
tree backward from it. -/
def solve (fuel : Nat) (h : HorseMoves) : Option HorseMoves :=
  match h.run_search fuel with
  | none => none
  | some h1 =>
    match dict_get h1.reached h1.finish_string with
    | none => none
    | some final_location =>
      some { h1 with move_tree := prune_loop [final_location] [] }

/-- Python `get_solutions`: `assert self.solved()` (failure is `none`), then
list the routes of the final location. -/
def get_solutions (h : HorseMoves) : Option (List (List ChessboardLocation)) :=
  if h.solved then
    (dict_get h.reached h.finish_string).map ChessboardLocation.list_routes
  else none

/-- Pure part of one pass of the search loop body: the evolution of the
`(reached, next_moves)` pair, which does not read `move_tree` or the finish
data. -/
def bfs_step (p : List (String × ChessboardLocation) × List ChessboardLocation) :
    List (String × ChessboardLocation) × List ChessboardLocation :=
  let nm := possible_next_moves p.1 p.2
  (dict_update p.1 nm, nm.map Prod.snd)

/-- Iterated search-loop body ignoring the stopping test. -/
def bfs_iter : Nat → List (String × ChessboardLocation) × List ChessboardLocation →
    List (String × ChessboardLocation) × List ChessboardLocation
  | 0, p => p
  | n + 1, p => bfs_iter n (bfs_step p)

/-- Initial `(reached, next_moves)` pair of a search started at `s`:
`reached = {str(s): s}` and the loop is entered with `next_moves = [s]`. -/
def bfs_start (s : ChessboardLocation) :
    List (String × ChessboardLocation) × List ChessboardLocation :=
  ([(s.to_string, s)], [s])

/-- Layers appended to the move tree by `n` passes of the search loop body. -/
def bfs_layers : Nat → List (String × ChessboardLocation) × List ChessboardLocation →
    List (List ChessboardLocation)
  | 0, _ => []
  | n + 1, p =>
    (possible_next_moves p.1 p.2).map Prod.snd :: bfs_layers n (bfs_step p)

end HorseMoves

/-- Enumeration of the 64 squares of the board, as fresh locations (the form
`ChessboardLocation(text)` yields for valid text). -/
def all_squares : List ChessboardLocation :=
  (List.range 8).flatMap (fun i =>
    (List.range 8).map (fun j => ChessboardLocation.mk (i : Int) (j : Int) .nil))

/-- Coordinate pair of a location. -/
def coords (l : ChessboardLocation) : Int × Int := (l.x, l.y)

/-- Both coordinates within the board range `[0,7]` (shown equivalent to the
code's `is_valid` by `is_valid_iff`). -/
def on_board (c : Int × Int) : Prop :=
  0 ≤ c.1 ∧ c.1 ≤ 7 ∧ 0 ≤ c.2 ∧ c.2 ≤ 7

instance (c : Int × Int) : Decidable (on_board c) :=
  inferInstanceAs (Decidable (0 ≤ c.1 ∧ c.1 ≤ 7 ∧ 0 ≤ c.2 ∧ c.2 ≤ 7))

/-- Coordinates one knight move away from `c`, exactly the candidate
coordinates the search generates from a location at `c`. -/
def moves_from (c : Int × Int) : List (Int × Int) :=
  HorseMoves.candidate_coordinates (ChessboardLocation.mk c.1 c.2 .nil)

/-- Knight adjacency of two coordinate pairs, as generated by the code. -/
def knight_adj (a b : Int × Int) : Prop :=
  b ∈ moves_from a

instance (a b : Int × Int) : Decidable (knight_adj a b) :=
  inferInstanceAs (Decidable (b ∈ moves_from a))

/-- Sequence of on-board coordinates each one knight move from the previous. -/
def coord_path (p : List (Int × Int)) : Prop :=
  List.Chain' knight_adj p ∧ ∀ c ∈ p, on_board c

instance (p : List (Int × Int)) : Decidable (coord_path p) :=
  inferInstanceAs (Decidable (List.Chain' knight_adj p ∧ ∀ c ∈ p, on_board c))

/-- Coordinate sequence of a route. -/
def route_coords (r : List ChessboardLocation) : List (Int × Int) :=
  r.map coords

/-- There is an on-board knight path of at most `n` moves from `a` to `b`. -/
def reach_path (a b : Int × Int) (n : Nat) : Prop :=
  ∃ q : List (Int × Int), List.Chain' knight_adj (a :: q) ∧
    (∀ c ∈ q, on_board c) ∧ (a :: q).getLastD (0, 0) = b ∧ q.length ≤ n

/-- Knight's tour of the whole board (certificate for the connectivity of the
knight-move graph, checked by `decide`). -/
def tour : List (Int × Int) :=
  [(0, 0), (1, 2), (2, 0), (0, 1), (1, 3), (0, 5), (1, 7), (3, 6), (5, 7), (7, 6),
   (6, 4), (7, 2), (6, 0), (4, 1), (6, 2), (7, 0), (5, 1), (3, 0), (1, 1), (0, 3),
   (1, 5), (0, 7), (2, 6), (4, 7), (6, 6), (7, 4), (5, 5), (6, 7), (7, 5), (6, 3),
   (7, 1), (5, 0), (3, 1), (1, 0), (2, 2), (4, 3), (2, 4), (3, 2), (4, 0), (5, 2),
   (7, 3), (6, 1), (5, 3), (4, 5), (3, 7), (1, 6), (0, 4), (2, 5), (0, 6), (2, 7),
   (4, 6), (3, 4), (4, 2), (5, 4), (3, 3), (2, 1), (0, 2), (1, 4), (3, 5), (2, 3),
   (4, 4), (5, 6), (7, 7), (6, 5)]

/-! ### Basic lemmas about locations and the list bridge -/

@[simp] theorem LocationList.toList_ofList :
    ∀ l : List ChessboardLocation, (LocationList.ofList l).toList = l
  | [] => rfl
  | h :: t => by
    simp only [LocationList.ofList, LocationList.toList, toList_ofList t]

@[simp] theorem ChessboardLocation.x_mk (a b : Int) (ps : LocationList) :
    (ChessboardLocation.mk a b ps).x = a := rfl

@[simp] theorem ChessboardLocation.y_mk (a b : Int) (ps : LocationList) :
    (ChessboardLocation.mk a b ps).y = b := rfl

@[simp] theorem ChessboardLocation.previous_locations_mk (a b : Int) (ps : LocationList) :
    (ChessboardLocation.mk a b ps).previous_locations = ps := rfl

@[simp] theorem coords_mk (a b : Int) (ps : LocationList) :
    coords (ChessboardLocation.mk a b ps) = (a, b) := rfl

theorem ChessboardLocation.eta (l : ChessboardLocation) :
    ChessboardLocation.mk l.x l.y l.previous_locations = l := by
  cases l; rfl

/-! ### Validity: the bitwise range check -/

theorem nat_and_seven (m : Nat) : m &&& 7 = m % 8 := by
  apply Nat.eq_of_testBit_eq
  intro i
  rw [Nat.testBit_and]
  have h8 : (8 : Nat) = 2 ^ 3 := by norm_num
  rw [h8, Nat.testBit_mod_two_pow]
  rcases Nat.lt_or_ge i 3 with h | h
  · have h7 : Nat.testBit 7 i = true := by interval_cases i <;> decide
    simp [h7, h]
  · have h7 : Nat.testBit 7 i = false := by
      have : (7 : Nat) < 2 ^ i :=
        lt_of_lt_of_le (by norm_num) (Nat.pow_le_pow_right (by norm_num) h)
      exact Nat.testBit_lt_two_pow this
    simp [h7, Nat.not_lt.mpr h]

theorem coord_land_iff (a : Int) : (a = Int.land a 7) ↔ 0 ≤ a ∧ a ≤ 7 := by
  cases a with
  | ofNat m =>
    have h : Int.land (Int.ofNat m) 7 = Int.ofNat (m % 8) := by
      show Int.ofNat (m &&& 7) = Int.ofNat (m % 8)
      rw [nat_and_seven]
    rw [h, Int.ofNat_eq_natCast, Int.ofNat_eq_natCast]
    constructor
    · intro he
      have hm : m = m % 8 := by exact_mod_cast he
      omega
    · rintro ⟨-, h7⟩
      have hm : m ≤ 7 := by exact_mod_cast h7
      have h2 : m % 8 = m := Nat.mod_eq_of_lt (by omega)
      rw [h2]
  | negSucc m =>
    have h : Int.land (Int.negSucc m) 7 = Int.ofNat (Nat.ldiff 7 m) := rfl
    rw [h]
    constructor
    · intro he; exact absurd he (by exact fun hh => Int.noConfusion hh)
    · rintro ⟨h0, -⟩
      exact absurd h0 (by exact not_le.mpr (Int.negSucc_lt_zero m))

theorem is_valid_iff (l : ChessboardLocation) :
    l.is_valid = true ↔ on_board (coords l) := by
  rcases l with ⟨a, b, ps⟩
  simp only [ChessboardLocation.is_valid, coords_mk, on_board,
    ChessboardLocation.x_mk, ChessboardLocation.y_mk, Bool.and_eq_true, beq_iff_eq]
  rw [coord_land_iff, coord_land_iff]
  tauto

/-- C7: `is_valid()` returns true if and only if both the x and the y
coordinate of the location lie in the range `[0, 7]`, for a location built
from any integer coordinates whatsoever. -/
theorem C7_is_valid_range (a b : Int) (ps : LocationList) :
    (ChessboardLocation.mk a b ps).is_valid = true ↔
      (0 ≤ a ∧ a ≤ 7) ∧ (0 ≤ b ∧ b ≤ 7) := by
  rw [is_valid_iff]
  simp only [coords_mk, on_board]
  tauto

/-! ### Textual form -/

theorem char_le_iff (a b : Char) : a ≤ b ↔ a.toNat ≤ b.toNat := by
  simp [Char.le_def, UInt32.le_def, BitVec.le_def, Char.toNat, UInt32.toNat]

theorem isDigit_iff (c : Char) : c.isDigit = true ↔ 48 ≤ c.toNat ∧ c.toNat ≤ 57 := by
  unfold Char.isDigit
  simp only [Char.le_def, UInt32.le_def, Char.toNat, Bool.and_eq_true, decide_eq_true_eq]
  exact Iff.rfl

theorem to_string_mk_prev (a b : Int) (ps : LocationList) :
    (ChessboardLocation.mk a b ps).to_string =
      (ChessboardLocation.mk a b .nil).to_string := rfl

theorem to_string_inj (l1 l2 : ChessboardLocation)
    (h1 : l1.is_valid = true) (h2 : l2.is_valid = true)
    (he : l1.to_string = l2.to_string) : coords l1 = coords l2 := by
  have d : ∀ i j i2 j2 : Fin 8,
      (ChessboardLocation.mk ((i : Nat) : Int) ((j : Nat) : Int) .nil).to_string =
        (ChessboardLocation.mk ((i2 : Nat) : Int) ((j2 : Nat) : Int) .nil).to_string →
      ((i : Nat) = (i2 : Nat) ∧ (j : Nat) = (j2 : Nat)) := by decide
  rcases l1 with ⟨a1, b1, p1⟩
  rcases l2 with ⟨a2, b2, p2⟩
  rw [is_valid_iff] at h1 h2
  simp only [coords_mk, on_board] at h1 h2 ⊢
  obtain ⟨ha1, ha1', hb1, hb1'⟩ := h1
  obtain ⟨ha2, ha2', hb2, hb2'⟩ := h2
  have e1 : ((a1.toNat : Nat) : Int) = a1 := Int.toNat_of_nonneg ha1
  have e2 : ((b1.toNat : Nat) : Int) = b1 := Int.toNat_of_nonneg hb1
  have e3 : ((a2.toNat : Nat) : Int) = a2 := Int.toNat_of_nonneg ha2
  have e4 : ((b2.toNat : Nat) : Int) = b2 := Int.toNat_of_nonneg hb2
  have := d ⟨a1.toNat, by omega⟩ ⟨b1.toNat, by omega⟩ ⟨a2.toNat, by omega⟩ ⟨b2.toNat, by omega⟩
  simp only [e1, e2, e3, e4] at this
  have h := this (by rw [to_string_mk_prev a1 b1 p1, to_string_mk_prev a2 b2 p2] at he; exact he)
  obtain ⟨hx, hy⟩ := h
  have : a1 = a2 := by omega
  have : b1 = b2 := by omega
  simp_all

/-- C8 counterexample: `"AX"` is a malformed two-character text (its rank
character is not a digit), yet constructing a square from it raises a decode
error (modelled `none`) instead of returning a square with `is_valid()`
false, so the claim fails at this input. -/
theorem C8_counterexample :
    ChessboardLocation.of_text "AX" = none ∧
    ¬∃ l, ChessboardLocation.of_text "AX" = some l ∧ l.is_valid = false := by
  refine ⟨rfl, ?_⟩
  rintro ⟨l, hl, -⟩
  rw [show ChessboardLocation.of_text "AX" = none from rfl] at hl
  exact Option.noConfusion hl

/-- C8 (amended): for a malformed two-character text whose rank character is a
decimal digit, construction does not raise and yields a square whose
`is_valid()` is false; when the rank character is not a digit, construction
raises a decode error (modelled `none`). -/
theorem C8_amended (c0 c1 : Char)
    (hmal : ¬(('A' ≤ c0 ∧ c0 ≤ 'H') ∧ ('1' ≤ c1 ∧ c1 ≤ '8'))) :
    (c1.isDigit = true →
      ∃ l, ChessboardLocation.of_text (String.mk [c0, c1]) = some l ∧
        l.is_valid = false) ∧
    (c1.isDigit = false → ChessboardLocation.of_text (String.mk [c0, c1]) = none) := by
  have hof : ChessboardLocation.of_text (String.mk [c0, c1]) =
      (ChessboardLocation.int_of_digit c1).map
        (fun d => ChessboardLocation.mk ((c0.toNat : Int) - 65) (d - 1) .nil) := rfl
  constructor
  · intro hd
    have hone : ChessboardLocation.int_of_digit c1 = some ((c1.toNat : Int) - 48) := by
      simp [ChessboardLocation.int_of_digit, hd]
    refine ⟨_, by rw [hof, hone]; rfl, ?_⟩
    rw [Bool.eq_false_iff]
    intro hval
    rw [is_valid_iff] at hval
    simp only [coords_mk, on_board] at hval
    obtain ⟨q1, q2, q3, q4⟩ := hval
    obtain ⟨hd1, hd2⟩ := (isDigit_iff c1).mp hd
    apply hmal
    refine ⟨⟨?_, ?_⟩, ?_, ?_⟩ <;> rw [char_le_iff] <;>
      first
        | (show (65 : Nat) ≤ c0.toNat; omega)
        | (show c0.toNat ≤ 72; omega)
        | (show (49 : Nat) ≤ c1.toNat; omega)
        | (show c1.toNat ≤ 56; omega)
  · intro hd
    have hnone : ChessboardLocation.int_of_digit c1 = none := by
      simp [ChessboardLocation.int_of_digit, hd]
    rw [hof, hnone]
    rfl

/-- C8 amended witness at the malformed text `"Z9"`: the rank is a digit, so
construction succeeds and yields an invalid square. -/
theorem C8_amended_witness :
    (¬(('A' ≤ 'Z' ∧ 'Z' ≤ 'H') ∧ ('1' ≤ '9' ∧ '9' ≤ '8'))) ∧
    ((('9' : Char).isDigit = true →
      ∃ l, ChessboardLocation.of_text (String.mk ['Z', '9']) = some l ∧
        l.is_valid = false) ∧
     (('9' : Char).isDigit = false →
      ChessboardLocation.of_text (String.mk ['Z', '9']) = none)) :=
  ⟨by decide, C8_amended 'Z' '9' (by decide)⟩

/-! ### Route enumeration -/

theorem routes_via_previous_eq (self : ChessboardLocation) :
    ∀ ps : LocationList, routes_via_previous self ps =
      ps.toList.flatMap (fun p => p.list_routes.map (fun route => route ++ [self]))
  | .nil => rfl
  | .cons p rest => by
    simp only [routes_via_previous, LocationList.toList, List.flatMap_cons,
      routes_via_previous_eq self rest]

theorem list_routes_eq (l : ChessboardLocation) :
    l.list_routes =
      if (l.get_previous_locations.flatMap
          (fun p => p.list_routes.map (fun route => route ++ [l]))).isEmpty then [[l]]
      else l.get_previous_locations.flatMap
          (fun p => p.list_routes.map (fun route => route ++ [l])) := by
  rcases l with ⟨a, b, ps⟩
  rw [ChessboardLocation.list_routes]
  rw [routes_via_previous_eq]
  rfl

theorem list_routes_ne_nil (l : ChessboardLocation) : l.list_routes ≠ [] := by
  rw [list_routes_eq]
  cases hres : (l.get_previous_locations.flatMap
      (fun p => p.list_routes.map (fun route => route ++ [l]))).isEmpty with
  | false =>
    simp only [Bool.false_eq_true, if_false]
    intro hnil
    rw [hnil] at hres
    simp at hres
  | true => simp

theorem list_routes_of_no_prev (l : ChessboardLocation)
    (h : l.get_previous_locations = []) : l.list_routes = [[l]] := by
  rw [list_routes_eq, h]
  rfl

theorem list_routes_of_prev (l : ChessboardLocation)
    (h : l.get_previous_locations ≠ []) :
    l.list_routes = l.get_previous_locations.flatMap
      (fun p => p.list_routes.map (fun route => route ++ [l])) := by
  rw [list_routes_eq]
  obtain ⟨p, ps, hcons⟩ : ∃ p ps, l.get_previous_locations = p :: ps := by
    rcases hl : l.get_previous_locations with _ | ⟨p, ps⟩
    · exact absurd hl h
    · exact ⟨p, ps, rfl⟩
  obtain ⟨r0, hr0⟩ : ∃ r0, r0 ∈ p.list_routes := by
    rcases hl : p.list_routes with _ | ⟨r0, rs⟩
    · exact absurd hl (list_routes_ne_nil p)
    · exact ⟨r0, hl ▸ List.mem_cons_self r0 rs⟩
  have hne : (l.get_previous_locations.flatMap
      (fun q => q.list_routes.map (fun route => route ++ [l]))) ≠ [] := by
    intro hnil
    have : r0 ++ [l] ∈ l.get_previous_locations.flatMap
        (fun q => q.list_routes.map (fun route => route ++ [l])) := by
      rw [List.mem_flatMap]
      exact ⟨p, by rw [hcons]; exact List.mem_cons_self p ps,
        List.mem_map_of_mem _ hr0⟩
    rw [hnil] at this
    exact List.not_mem_nil _ this
  have : (l.get_previous_locations.flatMap
      (fun q => q.list_routes.map (fun route => route ++ [l]))).isEmpty = false := by
    rcases hl : (l.get_previous_locations.flatMap
        (fun q => q.list_routes.map (fun route => route ++ [l]))) with _ | _
    · exact absurd hl hne
    · rfl
  rw [this]
  simp

theorem mem_list_routes (l : ChessboardLocation) (r : List ChessboardLocation) :
    r ∈ l.list_routes ↔
      (l.get_previous_locations = [] ∧ r = [l]) ∨
      (∃ p ∈ l.get_previous_locations, ∃ r0 ∈ p.list_routes, r = r0 ++ [l]) := by
  rcases hl : l.get_previous_locations with _ | ⟨p, ps⟩
  · rw [list_routes_of_no_prev l hl]
    simp
  · rw [list_routes_of_prev l (by rw [hl]; exact List.cons_ne_nil p ps), hl]
    simp only [List.mem_flatMap, List.mem_map]
    constructor
    · rintro ⟨q, hq, r0, hr0, rfl⟩
      exact Or.inr ⟨q, hq, r0, hr0, rfl⟩
    · rintro (⟨hnil, -⟩ | ⟨q, hq, r0, hr0, rfl⟩)
      · exact List.noConfusion hnil
      · exact ⟨q, hq, r0, hr0, rfl⟩

theorem route_ne_nil (l : ChessboardLocation) (r : List ChessboardLocation)
    (hr : r ∈ l.list_routes) : r ≠ [] := by
  rcases (mem_list_routes l r).mp hr with ⟨-, rfl⟩ | ⟨p, -, r0, -, rfl⟩
  · exact List.cons_ne_nil l []
  · exact List.append_ne_nil_of_right_ne_nil r0 (List.cons_ne_nil l [])

theorem route_getLast (l : ChessboardLocation) (r : List ChessboardLocation)
    (hr : r ∈ l.list_routes) : r.getLast? = some l := by
  rcases (mem_list_routes l r).mp hr with ⟨-, rfl⟩ | ⟨p, -, r0, -, rfl⟩
  · rfl
  · rw [List.getLast?_append]
    rfl

theorem routes_len_of_no_prev (l : ChessboardLocation)
    (h : l.get_previous_locations = []) : routes_len l 1 := by
  intro r hr
  rw [list_routes_of_no_prev l h] at hr
  simp only [List.mem_singleton] at hr
  simp [hr]

theorem routes_len_step (l : ChessboardLocation) (n : Nat)
    (hne : l.get_previous_locations ≠ [])
    (hp : ∀ p ∈ l.get_previous_locations, routes_len p n) : routes_len l (n + 1) := by
  intro r hr
  rcases (mem_list_routes l r).mp hr with ⟨hnil, rfl⟩ | ⟨p, hpm, r0, hr0, rfl⟩
  · exact absurd hnil hne
  · simp [List.length_append, hp p hpm r0 hr0]

theorem routes_len_inv (l : ChessboardLocation) (n : Nat)
    (h : routes_len l (n + 2)) :
    l.get_previous_locations ≠ [] ∧
      ∀ p ∈ l.get_previous_locations, routes_len p (n + 1) := by
  constructor
  · intro hnil
    have := h [l] (by rw [list_routes_of_no_prev l hnil]; simp)
    simp at this
  · intro p hpm r0 hr0
    have hmem : r0 ++ [l] ∈ l.list_routes :=
      (mem_list_routes l (r0 ++ [l])).mpr (Or.inr ⟨p, hpm, r0, hr0, rfl⟩)
    have := h (r0 ++ [l]) hmem
    simp only [List.length_append, List.length_singleton] at this
    omega

theorem routes_len_one (l : ChessboardLocation)
    (h : routes_len l 1) : l.get_previous_locations = [] := by
  rcases hl : l.get_previous_locations with _ | ⟨p, ps⟩
  · rfl
  · obtain ⟨r0, hr0⟩ : ∃ r0, r0 ∈ p.list_routes := by
      rcases hp : p.list_routes with _ | ⟨r0, rs⟩
      · exact absurd hp (list_routes_ne_nil p)
      · exact ⟨r0, hp ▸ List.mem_cons_self r0 rs⟩
    have hmem : r0 ++ [l] ∈ l.list_routes :=
      (mem_list_routes l (r0 ++ [l])).mpr
        (Or.inr ⟨p, hl ▸ List.mem_cons_self p ps, r0, hr0, rfl⟩)
    have hlen := h (r0 ++ [l]) hmem
    have hne := route_ne_nil p r0 hr0
    simp only [List.length_append, List.length_singleton] at hlen
    have : r0.length = 0 := by omega
    exact absurd (List.eq_nil_of_length_eq_zero this) hne

theorem routes_head_of_no_prev (l : ChessboardLocation)
    (h : l.get_previous_locations = []) : routes_head l l := by
  intro r hr
  rw [list_routes_of_no_prev l h] at hr
  simp only [List.mem_singleton] at hr
  simp [hr]

theorem routes_head_step (l s : ChessboardLocation)
    (hne : l.get_previous_locations ≠ [])
    (hp : ∀ p ∈ l.get_previous_locations, routes_head p s) : routes_head l s := by
  intro r hr
  rcases (mem_list_routes l r).mp hr with ⟨hnil, rfl⟩ | ⟨p, hpm, r0, hr0, rfl⟩
  · exact absurd hnil hne
  · have hh := hp p hpm r0 hr0
    rcases r0 with _ | ⟨a, r0t⟩
    · exact absurd rfl (route_ne_nil p [] hr0)
    · simpa using hh

/-! ### Start equals target -/

theorem solved_init_self (s : ChessboardLocation) :
    (HorseMoves.init s s).solved = true := by
  simp [HorseMoves.solved, HorseMoves.key_mem, HorseMoves.init]

theorem find_of_solved (fuel : Nat) (h : HorseMoves) (nm : List ChessboardLocation)
    (hs : h.solved = true) : h.find_shortest_solutions fuel nm = some h := by
  rw [HorseMoves.find_shortest_solutions.eq_def]
  simp [hs]

/-- C6: when `solve` is called with start equal to target (any valid square),
the search loop terminates immediately at layer 0 with zero moves (the pruned
move tree is the single layer containing only the start) and `get_solutions`
returns exactly one route, the single-element sequence `[start]`. -/
theorem C6_start_eq_target (a b : Int) (fuel : Nat)
    (hv : (ChessboardLocation.mk a b .nil).is_valid = true) :
    ∃ st, HorseMoves.solve fuel
        (HorseMoves.init (ChessboardLocation.mk a b .nil)
          (ChessboardLocation.mk a b .nil)) = some st ∧
      st.move_tree = [[ChessboardLocation.mk a b .nil]] ∧
      st.get_solutions = some [[ChessboardLocation.mk a b .nil]] := by
  set s := ChessboardLocation.mk a b .nil with hs
  have hsv : (HorseMoves.init s s).solved = true := solved_init_self s
  have hrun : (HorseMoves.init s s).run_search fuel = some (HorseMoves.init s s) := by
    unfold HorseMoves.run_search
    exact find_of_solved fuel _ _ hsv
  have hget : HorseMoves.dict_get (HorseMoves.init s s).reached
      (HorseMoves.init s s).finish_string = some s := by
    simp [HorseMoves.dict_get, HorseMoves.init]
  have hprune : HorseMoves.prune_loop [s] [] = [[s]] := by
    simp [HorseMoves.prune_loop, HorseMoves.prune_loop_fuel, node_count, node_count_list,
      ChessboardLocation.get_previous_locations, hs, LocationList.toList]
  refine ⟨{HorseMoves.init s s with move_tree := [[s]]}, ?_, rfl, ?_⟩
  · simp [HorseMoves.solve, hrun, hget, hprune]
  · have hsv2 : ({HorseMoves.init s s with move_tree := [[s]]} : HorseMoves).solved = true := hsv
    have hget2 : HorseMoves.dict_get
        ({HorseMoves.init s s with move_tree := [[s]]} : HorseMoves).reached
        ({HorseMoves.init s s with move_tree := [[s]]} : HorseMoves).finish_string
        = some s := hget
    simp [HorseMoves.get_solutions, hsv2, hget2]
    rw [list_routes_of_no_prev s (by rw [hs]; rfl)]

/-- C6 witness at the square `A1`. -/
theorem C6_start_eq_target_witness :
    (ChessboardLocation.mk 0 0 .nil).is_valid = true ∧
    ∃ st, HorseMoves.solve 63
        (HorseMoves.init (ChessboardLocation.mk 0 0 .nil)
          (ChessboardLocation.mk 0 0 .nil)) = some st ∧
      st.move_tree = [[ChessboardLocation.mk 0 0 .nil]] ∧
      st.get_solutions = some [[ChessboardLocation.mk 0 0 .nil]] :=
  ⟨by decide, C6_start_eq_target 0 0 63 (by decide)⟩

/-! ### Dictionary lemmas -/

theorem key_mem_iff (d : List (String × ChessboardLocation)) (k : String) :
    HorseMoves.key_mem d k = true ↔ ∃ kv ∈ d, kv.1 = k := by
  simp [HorseMoves.key_mem, List.any_eq_true]

theorem key_mem_false_iff (d : List (String × ChessboardLocation)) (k : String) :
    HorseMoves.key_mem d k = false ↔ ∀ kv ∈ d, kv.1 ≠ k := by
  rw [← Bool.not_eq_true, key_mem_iff]
  push_neg
  rfl

theorem key_mem_append (d1 d2 : List (String × ChessboardLocation)) (k : String) :
    HorseMoves.key_mem (d1 ++ d2) k = (HorseMoves.key_mem d1 k || HorseMoves.key_mem d2 k) := by
  simp [HorseMoves.key_mem, List.any_append]

theorem key_mem_isSome_find (d : List (String × ChessboardLocation)) (k : String) :
    HorseMoves.key_mem d k = (d.find? (fun kv => kv.1 == k)).isSome := by
  rcases hb : (d.find? (fun kv => kv.1 == k)).isSome with hh | hh
  · rw [hb, key_mem_false_iff]
    intro kv hkv heq
    rcases hfind : d.find? (fun kv => kv.1 == k) with _ | kv2
    · rw [List.find?_eq_none] at hfind
      exact absurd (by simpa using heq) (hfind kv hkv)
    · rw [hfind] at hb
      simp at hb
  · rw [hb]
    obtain ⟨kv, hkv, hp⟩ : ∃ kv ∈ d, (kv.1 == k) = true :=
      List.find?_isSome.mp (by rw [hb])
    rw [key_mem_iff]
    exact ⟨kv, hkv, by simpa using hp⟩

theorem dict_update_append (d nm : List (String × ChessboardLocation))
    (hdisj : ∀ kv ∈ nm, HorseMoves.key_mem d kv.1 = false)
    (hnd : (nm.map Prod.fst).Nodup) :
    HorseMoves.dict_update d nm = d ++ nm := by
  induction nm generalizing d with
  | nil => simp [HorseMoves.dict_update]
  | cons kv nms ih =>
    have hd0 : HorseMoves.key_mem d kv.1 = false := hdisj kv (List.mem_cons_self kv nms)
    have step : HorseMoves.dict_update d (kv :: nms) =
        HorseMoves.dict_update (d ++ [kv]) nms := by
      simp only [HorseMoves.dict_update, List.foldl_cons, hd0]
      rfl
    rw [step]
    simp only [List.map_cons, List.nodup_cons] at hnd
    have ih2 := ih (d ++ [kv]) ?_ hnd.2
    · rw [ih2, List.append_assoc]
      rfl
    · intro kv2 hkv2
      rw [key_mem_append]
      have h1 : HorseMoves.key_mem d kv2.1 = false := hdisj kv2 (List.mem_cons_of_mem kv hkv2)
      have h2 : HorseMoves.key_mem [kv] kv2.1 = false := by
        rw [key_mem_false_iff]
        intro kv3 hkv3
        simp only [List.mem_singleton] at hkv3
        subst hkv3
        intro heq
        exact hnd.1 (heq ▸ List.mem_map_of_mem Prod.fst hkv2)
      rw [h1, h2]
      rfl

theorem dict_get_append_left (d1 d2 : List (String × ChessboardLocation)) (k : String)
    (h : HorseMoves.key_mem d1 k = true) :
    HorseMoves.dict_get (d1 ++ d2) k = HorseMoves.dict_get d1 k := by
  rw [key_mem_isSome_find] at h
  rcases hf : d1.find? (fun kv => kv.1 == k) with - | kv
  · rw [hf] at h
    simp at h
  · simp [HorseMoves.dict_get, List.find?_append, hf]

theorem dict_get_mem (d : List (String × ChessboardLocation)) (k : String)
    (v : ChessboardLocation) (h : HorseMoves.dict_get d k = some v) : (k, v) ∈ d := by
  simp only [HorseMoves.dict_get, Option.map_eq_some'] at h
  obtain ⟨kv, hf, hv⟩ := h
  have hm := List.mem_of_find?_eq_some hf
  have hp := List.find?_some hf
  simp only [beq_iff_eq] at hp
  rcases kv with ⟨k0, v0⟩
  simp only at hp hv
  subst hp
  subst hv
  exact hm

theorem dict_get_of_mem (d : List (String × ChessboardLocation)) (k : String)
    (v : ChessboardLocation) (hnd : (d.map Prod.fst).Nodup) (hm : (k, v) ∈ d) :
    HorseMoves.dict_get d k = some v := by
  induction d with
  | nil => exact absurd hm (List.not_mem_nil _)
  | cons kv ds ih =>
    simp only [List.map_cons, List.nodup_cons] at hnd
    rcases List.mem_cons.mp hm with rfl | hm2
    · simp [HorseMoves.dict_get]
    · have hne : kv.1 ≠ k := by
        intro heq
        exact hnd.1 (heq ▸ List.mem_map_of_mem Prod.fst hm2)
      have : HorseMoves.dict_get ds k = some v := ih hnd.2 hm2
      simpa [HorseMoves.dict_get, List.find?_cons, hne] using this

/-! ### Facts about `add_previous` and candidates -/

theorem add_previous_to_string (l p : ChessboardLocation) :
    (l.add_previous p).to_string = l.to_string := rfl

theorem add_previous_coords (l p : ChessboardLocation) :
    coords (l.add_previous p) = coords l := rfl

theorem add_previous_is_valid (l p : ChessboardLocation) :
    (l.add_previous p).is_valid = l.is_valid := rfl

theorem add_previous_prevs (l p : ChessboardLocation) :
    (l.add_previous p).get_previous_locations =
      if l.get_previous_locations.any (fun q => q.to_string == p.to_string) then
        l.get_previous_locations.map (fun q => if q.to_string == p.to_string then p else q)
      else l.get_previous_locations ++ [p] := by
  rcases l with ⟨a, b, ps⟩
  simp only [ChessboardLocation.add_previous, ChessboardLocation.get_previous_locations,
    ChessboardLocation.previous_locations_mk, LocationList.toList_ofList]

theorem mem_add_previous (l p q : ChessboardLocation)
    (hq : q ∈ (l.add_previous p).get_previous_locations) :
    q ∈ l.get_previous_locations ∨ q = p := by
  rw [add_previous_prevs] at hq
  split_ifs at hq with h
  · obtain ⟨q0, hq0, hqe⟩ := List.mem_map.mp hq
    by_cases he : q0.to_string == p.to_string
    · rw [if_pos he] at hqe
      exact Or.inr hqe.symm
    · rw [if_neg he] at hqe
      exact Or.inl (hqe ▸ hq0)
  · rcases List.mem_append.mp hq with h1 | h1
    · exact Or.inl h1
    · simp only [List.mem_singleton] at h1
      exact Or.inr h1

theorem add_previous_prevs_ne_nil (l p : ChessboardLocation) :
    (l.add_previous p).get_previous_locations ≠ [] := by
  rw [add_previous_prevs]
  split_ifs with h
  · intro hnil
    rw [List.map_eq_nil_iff] at hnil
    rw [hnil] at h
    simp at h
  · exact List.append_ne_nil_of_right_ne_nil _ (List.cons_ne_nil p [])

theorem self_mem_add_previous (l p : ChessboardLocation) :
    p ∈ (l.add_previous p).get_previous_locations := by
  rw [add_previous_prevs]
  split_ifs with h
  · rw [List.any_eq_true] at h
    obtain ⟨q0, hq0, hqe⟩ := h
    rw [List.mem_map]
    exact ⟨q0, hq0, by rw [if_pos hqe]⟩
  · exact List.mem_append_right _ (List.mem_singleton_self p)

theorem candidate_coordinates_eq (l : ChessboardLocation) :
    HorseMoves.candidate_coordinates l = moves_from (coords l) := by
  rcases l with ⟨a, b, ps⟩
  rfl

/-! ### Entries of `possible_next_moves` -/

theorem pnm_entry (reached : List (String × ChessboardLocation))
    (ls : List ChessboardLocation) :
    ∀ kv ∈ HorseMoves.possible_next_moves reached ls,
      kv.1 = kv.2.to_string ∧ kv.2.is_valid = true ∧
      kv.2.get_previous_locations ≠ [] ∧
      ∀ p ∈ kv.2.get_previous_locations,
        p ∈ ls ∧ knight_adj (coords p) (coords kv.2) := by
  unfold HorseMoves.possible_next_moves
  refine @List.foldlRecOn _ _
    (fun (nm : List (String × ChessboardLocation)) => ∀ kv ∈ nm,
      kv.1 = kv.2.to_string ∧ kv.2.is_valid = true ∧
      kv.2.get_previous_locations ≠ [] ∧
      ∀ p ∈ kv.2.get_previous_locations,
        p ∈ ls ∧ knight_adj (coords p) (coords kv.2))
    ls _ [] ?_ ?_
  · intro kv hkv
    exact absurd hkv (List.not_mem_nil kv)
  · intro nm hnm sl hsl
    refine @List.foldlRecOn _ _
      (fun (nm : List (String × ChessboardLocation)) => ∀ kv ∈ nm,
        kv.1 = kv.2.to_string ∧ kv.2.is_valid = true ∧
        kv.2.get_previous_locations ≠ [] ∧
        ∀ p ∈ kv.2.get_previous_locations,
          p ∈ ls ∧ knight_adj (coords p) (coords kv.2))
      (HorseMoves.candidate_coordinates sl) _ nm ?_ ?_
    · exact hnm
    · intro nm2 hnm2 c hc
      intro kv hkv
      simp only [HorseMoves.process_candidate] at hkv
      split_ifs at hkv with hval hreach hfresh
      · -- already reached: next_moves unchanged
        exact hnm2 kv hkv
      · -- same-depth arrival: add_previous on the matching entry
        obtain ⟨kv0, hkv0, hkve⟩ := List.mem_map.mp hkv
        by_cases he : kv0.1 == (ChessboardLocation.mk c.1 c.2
            (LocationList.ofList [sl])).to_string
        · rw [if_pos he] at hkve
          obtain ⟨h1, h2, h3, h4⟩ := hnm2 kv0 hkv0
          subst hkve
          refine ⟨?_, ?_, ?_, ?_⟩
          · simpa [add_previous_to_string] using h1
          · simpa [add_previous_is_valid] using h2
          · exact add_previous_prevs_ne_nil kv0.2 sl
          · intro p hp
            rw [add_previous_coords]
            have hcoords : coords kv0.2 = (c.1, c.2) := by
              have he2 : kv0.2.to_string =
                  (ChessboardLocation.mk c.1 c.2 (LocationList.ofList [sl])).to_string := by
                rw [← h1]
                exact beq_iff_eq.mp he
              have := to_string_inj kv0.2
                (ChessboardLocation.mk c.1 c.2 (LocationList.ofList [sl])) h2 hval he2
              simpa using this
            rcases mem_add_previous kv0.2 sl p hp with hold | rfl
            · exact h4 p hold
            · refine ⟨hsl, ?_⟩
              rw [hcoords]
              show (c.1, c.2) ∈ moves_from (coords p)
              rw [← candidate_coordinates_eq]
              simpa using hc
        · rw [if_neg he] at hkve
          exact hkve ▸ hnm2 kv0 hkv0
      · -- first arrival: fresh entry appended
        rcases List.mem_append.mp hkv with hold | hnew
        · exact hnm2 kv hold
        · simp only [List.mem_singleton] at hnew
          subst hnew
          refine ⟨rfl, hval, ?_, ?_⟩
          · simp [ChessboardLocation.get_previous_locations]
          · intro p hp
            simp only [ChessboardLocation.get_previous_locations,
              ChessboardLocation.previous_locations_mk, LocationList.toList_ofList,
              List.mem_singleton] at hp
            subst hp
            refine ⟨hsl, ?_⟩
            show (_, _) ∈ moves_from (coords p)
            rw [← candidate_coordinates_eq]
            simpa using hc
      · -- invalid candidate: unchanged
        exact hnm2 kv hkv

theorem key_mem_keys (d : List (String × ChessboardLocation)) (k : String) :
    HorseMoves.key_mem d k = true ↔ k ∈ d.map Prod.fst := by
  rw [key_mem_iff]
  constructor
  · rintro ⟨kv, hkv, rfl⟩
    exact List.mem_map_of_mem Prod.fst hkv
  · intro hk
    obtain ⟨kv, hkv, he⟩ := List.mem_map.mp hk
    exact ⟨kv, hkv, he⟩

theorem pnm_keys (reached : List (String × ChessboardLocation))
    (ls : List ChessboardLocation) :
    ((HorseMoves.possible_next_moves reached ls).map Prod.fst).Nodup ∧
    ∀ kv ∈ HorseMoves.possible_next_moves reached ls,
      HorseMoves.key_mem reached kv.1 = false := by
  unfold HorseMoves.possible_next_moves
  refine @List.foldlRecOn _ _
    (fun (nm : List (String × ChessboardLocation)) =>
      (nm.map Prod.fst).Nodup ∧
      ∀ kv ∈ nm, HorseMoves.key_mem reached kv.1 = false)
    ls _ [] ?_ ?_
  · exact ⟨List.nodup_nil, fun kv hkv => absurd hkv (List.not_mem_nil kv)⟩
  · intro nm hnm sl hsl
    refine @List.foldlRecOn _ _
      (fun (nm : List (String × ChessboardLocation)) =>
        (nm.map Prod.fst).Nodup ∧
        ∀ kv ∈ nm, HorseMoves.key_mem reached kv.1 = false)
      (HorseMoves.candidate_coordinates sl) _ nm ?_ ?_
    · exact hnm
    · intro nm2 hnm2 c hc
      obtain ⟨hnd, hfr⟩ := hnm2
      simp only [HorseMoves.process_candidate]
      split_ifs with hval hreach hfresh
      · exact ⟨hnd, hfr⟩
      · constructor
        · have : (nm2.map (fun kv =>
              if kv.1 == (ChessboardLocation.mk c.1 c.2
                  (LocationList.ofList [sl])).to_string then
                (kv.1, kv.2.add_previous sl) else kv)).map Prod.fst
              = nm2.map Prod.fst := by
            rw [List.map_map]
            apply List.map_congr_left
            intro kv hkv
            by_cases he : kv.1 == (ChessboardLocation.mk c.1 c.2
                (LocationList.ofList [sl])).to_string
            · rw [Function.comp_apply, if_pos he]
            · rw [Function.comp_apply, if_neg he]
          rw [this]
          exact hnd
        · intro kv hkv
          obtain ⟨kv0, hkv0, hkve⟩ := List.mem_map.mp hkv
          have : kv.1 = kv0.1 := by
            by_cases he : kv0.1 == (ChessboardLocation.mk c.1 c.2
                (LocationList.ofList [sl])).to_string
            · rw [if_pos he] at hkve
              rw [← hkve]
            · rw [if_neg he] at hkve
              rw [← hkve]
          rw [this]
          exact hfr kv0 hkv0
      · constructor
        · rw [List.map_append, List.nodup_append]
          refine ⟨hnd, List.nodup_singleton _, ?_⟩
          intro k hk hk2
          simp only [List.map_cons, List.map_nil, List.mem_singleton] at hk2
          subst hk2
          exact hfresh ((key_mem_keys nm2 _).mpr hk)
        · intro kv hkv
          rcases List.mem_append.mp hkv with hold | hnew
          · exact hfr kv hold
          · simp only [List.mem_singleton] at hnew
            subst hnew
            exact Bool.eq_false_iff.mpr hreach
      · exact ⟨hnd, hfr⟩

theorem map_add_prev_keys (nm : List (String × ChessboardLocation)) (s : String)
    (sl : ChessboardLocation) :
    ((nm.map (fun kv => if kv.1 == s then (kv.1, kv.2.add_previous sl) else kv)).map
      Prod.fst) = nm.map Prod.fst := by
  rw [List.map_map]
  apply List.map_congr_left
  intro kv hkv
  by_cases he : kv.1 == s
  · rw [Function.comp_apply, if_pos he]
  · rw [Function.comp_apply, if_neg he]

theorem process_candidate_key_mono (reached : List (String × ChessboardLocation))
    (sl : ChessboardLocation) (nm : List (String × ChessboardLocation)) (c : Int × Int)
    (k : String) (h : HorseMoves.key_mem nm k = true) :
    HorseMoves.key_mem (HorseMoves.process_candidate reached sl nm c) k = true := by
  simp only [HorseMoves.process_candidate]
  split_ifs
  · exact h
  · rw [key_mem_keys, map_add_prev_keys]
    exact (key_mem_keys nm k).mp h
  · rw [key_mem_append, h, Bool.true_or]
  · exact h

theorem fold_pc_key_mono (reached : List (String × ChessboardLocation))
    (sl : ChessboardLocation) (cs : List (Int × Int))
    (nm : List (String × ChessboardLocation)) (k : String)
    (h : HorseMoves.key_mem nm k = true) :
    HorseMoves.key_mem
      (cs.foldl (fun nm c => HorseMoves.process_candidate reached sl nm c) nm) k = true := by
  induction cs generalizing nm with
  | nil => exact h
  | cons c cs ih =>
    rw [List.foldl_cons]
    exact ih _ (process_candidate_key_mono reached sl nm c k h)

theorem fold_frontier_key_mono (reached : List (String × ChessboardLocation))
    (ls : List ChessboardLocation) (nm : List (String × ChessboardLocation)) (k : String)
    (h : HorseMoves.key_mem nm k = true) :
    HorseMoves.key_mem
      (ls.foldl (fun nm sl =>
        (HorseMoves.candidate_coordinates sl).foldl
          (fun nm c => HorseMoves.process_candidate reached sl nm c) nm) nm) k = true := by
  induction ls generalizing nm with
  | nil => exact h
  | cons sl ls ih =>
    rw [List.foldl_cons]
    exact ih _ (fold_pc_key_mono reached sl _ nm k h)

theorem process_candidate_key_self (reached : List (String × ChessboardLocation))
    (sl : ChessboardLocation) (nm : List (String × ChessboardLocation)) (c : Int × Int)
    (hval : (ChessboardLocation.mk c.1 c.2 (LocationList.ofList [sl])).is_valid = true)
    (hreach : HorseMoves.key_mem reached
      ((ChessboardLocation.mk c.1 c.2 (LocationList.ofList [sl])).to_string) = false) :
    HorseMoves.key_mem (HorseMoves.process_candidate reached sl nm c)
      ((ChessboardLocation.mk c.1 c.2 (LocationList.ofList [sl])).to_string) = true := by
  simp only [HorseMoves.process_candidate]
  rw [if_pos hval, if_neg (by rw [hreach]; exact Bool.false_ne_true)]
  split_ifs with hin
  · rw [key_mem_keys, map_add_prev_keys]
    exact (key_mem_keys nm _).mp hin
  · rw [key_mem_append]
    have h1 : HorseMoves.key_mem
        [((ChessboardLocation.mk c.1 c.2 (LocationList.ofList [sl])).to_string,
          ChessboardLocation.mk c.1 c.2 (LocationList.ofList [sl]))]
        ((ChessboardLocation.mk c.1 c.2 (LocationList.ofList [sl])).to_string) = true := by
      simp [HorseMoves.key_mem]
    rw [h1, Bool.or_true]

theorem pnm_covers (reached : List (String × ChessboardLocation))
    (ls : List ChessboardLocation) (u : ChessboardLocation) (hu : u ∈ ls)
    (c : Int × Int) (hc : c ∈ HorseMoves.candidate_coordinates u)
    (hval : (ChessboardLocation.mk c.1 c.2 (LocationList.ofList [u])).is_valid = true) :
    HorseMoves.key_mem reached
      ((ChessboardLocation.mk c.1 c.2 (LocationList.ofList [u])).to_string) = true ∨
    HorseMoves.key_mem (HorseMoves.possible_next_moves reached ls)
      ((ChessboardLocation.mk c.1 c.2 (LocationList.ofList [u])).to_string) = true := by
  rcases hr : HorseMoves.key_mem reached
      ((ChessboardLocation.mk c.1 c.2 (LocationList.ofList [u])).to_string) with h0 | h0
  · right
    unfold HorseMoves.possible_next_moves
    have hinner : ∀ (cs : List (Int × Int)) (nm : List (String × ChessboardLocation)),
        c ∈ cs →
        HorseMoves.key_mem
          (cs.foldl (fun nm c2 => HorseMoves.process_candidate reached u nm c2) nm)
          ((ChessboardLocation.mk c.1 c.2 (LocationList.ofList [u])).to_string) = true := by
      intro cs
      induction cs with
      | nil => intro nm hcm; exact absurd hcm (List.not_mem_nil c)
      | cons c2 cs ih =>
        intro nm hcm
        rw [List.foldl_cons]
        rcases List.mem_cons.mp hcm with rfl | htail
        · exact fold_pc_key_mono reached u cs _ _
            (process_candidate_key_self reached u nm c hval hr)
        · exact ih _ htail
    have hgen : ∀ (ls2 : List ChessboardLocation)
        (nm0 : List (String × ChessboardLocation)), u ∈ ls2 →
        HorseMoves.key_mem
          (ls2.foldl (fun nm sl =>
            (HorseMoves.candidate_coordinates sl).foldl
              (fun nm c => HorseMoves.process_candidate reached sl nm c) nm) nm0)
          ((ChessboardLocation.mk c.1 c.2 (LocationList.ofList [u])).to_string) = true := by
      intro ls2
      induction ls2 with
      | nil => intro nm0 hu2; exact absurd hu2 (List.not_mem_nil u)
      | cons sl ls2 ih =>
        intro nm0 hu2
        rw [List.foldl_cons]
        rcases List.mem_cons.mp hu2 with rfl | htail
        · exact fold_frontier_key_mono reached ls2 _ _ (hinner _ nm0 hc)
        · exact ih _ htail
    exact hgen ls [] hu
  · exact Or.inl rfl

/-! ### The search loop state across iterations -/

theorem bfs_step_reached (p : List (String × ChessboardLocation) × List ChessboardLocation) :
    (HorseMoves.bfs_step p).1 = p.1 ++ HorseMoves.possible_next_moves p.1 p.2 := by
  unfold HorseMoves.bfs_step
  exact dict_update_append p.1 _ (pnm_keys p.1 p.2).2 (pnm_keys p.1 p.2).1

theorem bfs_step_frontier (p : List (String × ChessboardLocation) × List ChessboardLocation) :
    (HorseMoves.bfs_step p).2 = (HorseMoves.possible_next_moves p.1 p.2).map Prod.snd := rfl

theorem bfs_iter_succ_back (n : Nat)
    (p : List (String × ChessboardLocation) × List ChessboardLocation) :
    HorseMoves.bfs_iter (n + 1) p = HorseMoves.bfs_step (HorseMoves.bfs_iter n p) := by
  induction n generalizing p with
  | zero => rfl
  | succ m ih =>
    show HorseMoves.bfs_iter (m + 1) (HorseMoves.bfs_step p) =
      HorseMoves.bfs_step (HorseMoves.bfs_iter m (HorseMoves.bfs_step p))
    exact ih (HorseMoves.bfs_step p)

theorem bfs_step_key_mono (p : List (String × ChessboardLocation) × List ChessboardLocation)
    (k : String) (h : HorseMoves.key_mem p.1 k = true) :
    HorseMoves.key_mem (HorseMoves.bfs_step p).1 k = true := by
  rw [bfs_step_reached, key_mem_append, h, Bool.true_or]

theorem bfs_iter_key_mono (n m : Nat)
    (p : List (String × ChessboardLocation) × List ChessboardLocation)
    (k : String) (hnm : n ≤ m) (h : HorseMoves.key_mem (HorseMoves.bfs_iter n p).1 k = true) :
    HorseMoves.key_mem (HorseMoves.bfs_iter m p).1 k = true := by
  induction m with
  | zero =>
    have : n = 0 := Nat.le_zero.mp hnm
    subst this
    exact h
  | succ m2 ih =>
    rcases Nat.lt_or_ge n (m2 + 1) with hlt | hge
    · rw [bfs_iter_succ_back]
      exact bfs_step_key_mono _ k (ih (Nat.lt_succ_iff.mp hlt))
    · have : n = m2 + 1 := Nat.le_antisymm hnm hge
      subst this
      exact h

theorem bfs_iter_entry (s : ChessboardLocation) (hs : s.is_valid = true) (n : Nat) :
    ∀ kv ∈ (HorseMoves.bfs_iter n (HorseMoves.bfs_start s)).1,
      kv.1 = kv.2.to_string ∧ kv.2.is_valid = true := by
  induction n with
  | zero =>
    intro kv hkv
    simp only [HorseMoves.bfs_iter, HorseMoves.bfs_start, List.mem_singleton] at hkv
    subst hkv
    exact ⟨rfl, hs⟩
  | succ m ih =>
    intro kv hkv
    rw [bfs_iter_succ_back, bfs_step_reached] at hkv
    rcases List.mem_append.mp hkv with hold | hnew
    · exact ih kv hold
    · have := pnm_entry _ _ kv hnew
      exact ⟨this.1, this.2.1⟩

theorem reached_neighbors (s : ChessboardLocation) (hs : s.is_valid = true) (n : Nat) :
    ∀ kv ∈ (HorseMoves.bfs_iter n (HorseMoves.bfs_start s)).1,
      ∀ c ∈ HorseMoves.candidate_coordinates kv.2,
        (ChessboardLocation.mk c.1 c.2 (LocationList.ofList [kv.2])).is_valid = true →
        HorseMoves.key_mem (HorseMoves.bfs_iter (n + 1) (HorseMoves.bfs_start s)).1
          ((ChessboardLocation.mk c.1 c.2 (LocationList.ofList [kv.2])).to_string) = true := by
  induction n with
  | zero =>
    intro kv hkv c hc hval
    simp only [HorseMoves.bfs_iter, HorseMoves.bfs_start, List.mem_singleton] at hkv
    subst hkv
    rw [show (1 : Nat) = 0 + 1 from rfl, bfs_iter_succ_back]
    rw [bfs_step_reached, key_mem_append]
    rcases pnm_covers (HorseMoves.bfs_iter 0 (HorseMoves.bfs_start s)).1
        (HorseMoves.bfs_iter 0 (HorseMoves.bfs_start s)).2
        ((s.to_string, s) : String × ChessboardLocation).2
        (by simp [HorseMoves.bfs_iter, HorseMoves.bfs_start]) c hc hval with h0 | h0
    · rw [h0, Bool.true_or]
    · rw [h0, Bool.or_true]
  | succ m ih =>
    intro kv hkv c hc hval
    rw [bfs_iter_succ_back, bfs_step_reached] at hkv
    rcases List.mem_append.mp hkv with hold | hnew
    · exact bfs_iter_key_mono (m + 1) (m + 2) _ _ (by omega) (ih kv hold c hc hval)
    · have hvfr : kv.2 ∈ (HorseMoves.bfs_iter (m + 1) (HorseMoves.bfs_start s)).2 := by
        rw [bfs_iter_succ_back, bfs_step_frontier]
        exact List.mem_map_of_mem Prod.snd hnew
      rw [show m + 1 + 1 = (m + 1) + 1 from rfl, bfs_iter_succ_back]
      rw [bfs_step_reached, key_mem_append]
      rcases pnm_covers (HorseMoves.bfs_iter (m + 1) (HorseMoves.bfs_start s)).1
          (HorseMoves.bfs_iter (m + 1) (HorseMoves.bfs_start s)).2 kv.2 hvfr c hc hval with
        h0 | h0
      · rw [h0, Bool.true_or]
      · rw [h0, Bool.or_true]

theorem to_string_coords (l : ChessboardLocation) :
    (ChessboardLocation.mk (coords l).1 (coords l).2 LocationList.nil).to_string =
      l.to_string := by
  rcases l with ⟨a, b, ps⟩
  rfl

/-- Every on-board knight path out of `s` is covered by the search: after as
many loop passes as the path has moves, the key of its last square is in
`reached`. -/
theorem path_reached (s : ChessboardLocation) (hs : s.is_valid = true) :
    ∀ (q : List (Int × Int)), List.Chain' knight_adj (coords s :: q) →
      (∀ c ∈ q, on_board c) →
      HorseMoves.key_mem (HorseMoves.bfs_iter q.length (HorseMoves.bfs_start s)).1
        (ChessboardLocation.mk ((coords s :: q).getLastD (0, 0)).1
          ((coords s :: q).getLastD (0, 0)).2 LocationList.nil).to_string = true := by
  intro q
  induction q using List.reverseRecOn with
  | nil =>
    intro hchain hboard
    have h0 : (coords s :: ([] : List (Int × Int))).getLastD (0, 0) = coords s := rfl
    rw [h0]
    rw [show (ChessboardLocation.mk (coords s).1 (coords s).2 LocationList.nil).to_string
      = s.to_string from to_string_coords s]
    simp [HorseMoves.bfs_iter, HorseMoves.bfs_start, HorseMoves.key_mem]
  | append_singleton q c2 ih =>
    intro hchain hboard
    have hsplit : List.Chain' knight_adj (coords s :: q) ∧
        knight_adj ((coords s :: q).getLastD (0, 0)) c2 := by
      rw [show (coords s :: (q ++ [c2])) = (coords s :: q) ++ [c2] from by
        rw [List.cons_append]] at hchain
      rw [List.chain'_append] at hchain
      refine ⟨hchain.1, ?_⟩
      have h3 := hchain.2.2
      have hlast : (coords s :: q).getLast? = some ((coords s :: q).getLastD (0, 0)) := by
        rw [List.getLastD_eq_getLast?,
          List.getLast?_eq_getLast _ (List.cons_ne_nil (coords s) q)]
        rfl
      exact h3 _ hlast c2 rfl
    obtain ⟨hchain0, hadj⟩ := hsplit
    have hboard0 : ∀ c ∈ q, on_board c := fun c hc =>
      hboard c (List.mem_append_left _ hc)
    have ihh := ih hchain0 hboard0
    set d := (coords s :: q).getLastD (0, 0) with hd
    have hdon : on_board d := by
      have hmem : d ∈ coords s :: q := by
        rw [hd]
        have hm := List.getLast_mem (List.cons_ne_nil (coords s) q)
        rw [List.getLastD_eq_getLast?, List.getLast?_eq_getLast _ (List.cons_ne_nil (coords s) q)]
        exact hm
      rcases List.mem_cons.mp hmem with he | hq
      · rw [he]
        exact (is_valid_iff s).mp hs
      · exact hboard0 d hq
    obtain ⟨kv, hkv, hkey⟩ := (key_mem_iff _ _).mp ihh
    obtain ⟨hk1, hk2⟩ := bfs_iter_entry s hs q.length kv hkv
    have hcoords : coords kv.2 = d := by
      have hv : (ChessboardLocation.mk d.1 d.2 LocationList.nil).is_valid = true := by
        rw [is_valid_iff]
        simpa using hdon
      have he : kv.2.to_string = (ChessboardLocation.mk d.1 d.2 LocationList.nil).to_string := by
        rw [← hk1, hkey]
      have := to_string_inj kv.2 (ChessboardLocation.mk d.1 d.2 LocationList.nil) hk2 hv he
      simpa using this
    have hc2cand : c2 ∈ HorseMoves.candidate_coordinates kv.2 := by
      rw [candidate_coordinates_eq, hcoords]
      exact hadj
    have hval2 : (ChessboardLocation.mk c2.1 c2.2 (LocationList.ofList [kv.2])).is_valid
        = true := by
      rw [is_valid_iff]
      simpa using hboard c2 (List.mem_append_right _ (List.mem_singleton_self c2))
    have hnb := reached_neighbors s hs q.length kv hkv c2 hc2cand hval2
    have hkeyeq : (ChessboardLocation.mk c2.1 c2.2 (LocationList.ofList [kv.2])).to_string
        = (ChessboardLocation.mk c2.1 c2.2 LocationList.nil).to_string := by
      rw [to_string_mk_prev]
    rw [hkeyeq] at hnb
    have hlen : (q ++ [c2]).length = q.length + 1 := by
      simp
    rw [hlen]
    have hlast2 : (coords s :: (q ++ [c2])).getLastD (0, 0) = c2 := by
      rw [show (coords s :: (q ++ [c2])) = (coords s :: q) ++ [c2] from by
        rw [List.cons_append]]
      exact List.getLastD_concat _ _ _
    rw [hlast2]
    exact hnb

/-! ### Knight-move paths along the tour -/

theorem on_board_fin (c : Int × Int) (h : on_board c) :
    ∃ i j : Fin 8, c = (((i : Nat) : Int), ((j : Nat) : Int)) := by
  obtain ⟨h1, h2, h3, h4⟩ := h
  refine ⟨⟨c.1.toNat, by omega⟩, ⟨c.2.toNat, by omega⟩, ?_⟩
  rcases c with ⟨cx, cy⟩
  simp only at h1 h2 h3 h4 ⊢
  rw [Prod.mk.injEq]
  constructor <;> simp <;> omega

theorem knight_adj_symm_fin :
    ∀ i j k l : Fin 8,
      knight_adj (((i : Nat) : Int), ((j : Nat) : Int)) (((k : Nat) : Int), ((l : Nat) : Int)) →
      knight_adj (((k : Nat) : Int), ((l : Nat) : Int)) (((i : Nat) : Int), ((j : Nat) : Int)) := by
  decide

theorem knight_adj_symm (a b : Int × Int) (ha : on_board a) (hb : on_board b)
    (h : knight_adj a b) : knight_adj b a := by
  obtain ⟨i, j, rfl⟩ := on_board_fin a ha
  obtain ⟨k, l, rfl⟩ := on_board_fin b hb
  exact knight_adj_symm_fin i j k l h

theorem chain'_imp_of_mem {α : Type} {R S : α → α → Prop} :
    ∀ l : List α, (∀ a ∈ l, ∀ b ∈ l, R a b → S a b) → List.Chain' R l → List.Chain' S l
  | [], _, _ => List.chain'_nil
  | [a], _, _ => List.chain'_singleton a
  | a :: b :: l, himp, hch => by
    rw [List.chain'_cons] at hch ⊢
    refine ⟨himp a (by simp) b (by simp) hch.1, ?_⟩
    exact chain'_imp_of_mem (b :: l)
      (fun p hp r hr hpr =>
        himp p (List.mem_cons_of_mem a hp) r (List.mem_cons_of_mem a hr) hpr)
      hch.2

/-- Path from the head of a knight chain to any of its members. -/
theorem chain_path_from_head :
    ∀ (l : List (Int × Int)) (c0 : Int × Int),
      List.Chain' knight_adj (c0 :: l) → ∀ v ∈ c0 :: l,
      ∃ q : List (Int × Int), List.Chain' knight_adj (c0 :: q) ∧
        (∀ c ∈ q, c ∈ c0 :: l) ∧ (c0 :: q).getLastD (0, 0) = v ∧ q.length ≤ l.length
  | [], c0, _, v, hv => by
    simp only [List.mem_singleton] at hv
    exact ⟨[], List.chain'_singleton c0, by simp, by simpa using hv.symm, by simp⟩
  | c1 :: l2, c0, hch, v, hv => by
    rw [List.chain'_cons] at hch
    rcases List.mem_cons.mp hv with rfl | hv2
    · exact ⟨[], List.chain'_singleton v, by simp, rfl, by simp⟩
    · obtain ⟨q2, hq2c, hq2m, hq2l, hq2len⟩ :=
        chain_path_from_head l2 c1 hch.2 v hv2
      refine ⟨c1 :: q2, ?_, ?_, ?_, ?_⟩
      · rw [List.chain'_cons]
        exact ⟨hch.1, hq2c⟩
      · intro c hc
        rcases List.mem_cons.mp hc with rfl | hc2
        · exact List.mem_cons_of_mem c0 (List.mem_cons_self c l2)
        · exact List.mem_cons_of_mem c0 (hq2m c hc2)
      · rw [List.getLastD_cons, List.getLastD_cons]
        rw [List.getLastD_cons] at hq2l
        exact hq2l
      · simp only [List.length_cons]
        omega

theorem chain_path_reverse (u : Int × Int) (q : List (Int × Int))
    (hch : List.Chain' knight_adj (u :: q))
    (hb : ∀ c ∈ u :: q, on_board c) :
    ∃ q2 : List (Int × Int),
      List.Chain' knight_adj (((u :: q).getLastD (0, 0)) :: q2) ∧
      (∀ c ∈ q2, c ∈ u :: q) ∧
      ((((u :: q).getLastD (0, 0))) :: q2).getLastD (0, 0) = u ∧
      q2.length = q.length := by
  have hrev : List.Chain' knight_adj ((u :: q).reverse) := by
    rw [List.chain'_reverse]
    exact chain'_imp_of_mem _
      (fun a ha b hbm hab => knight_adj_symm a b (hb a ha) (hb b hbm) hab) hch
  rcases hrv : (u :: q).reverse with _ | ⟨h0, q2⟩
  · exact absurd hrv (by simp)
  · have hhead : (u :: q).getLastD (0, 0) = h0 := by
      have h1 : (u :: q).reverse.head? = some h0 := by rw [hrv]; rfl
      rw [List.head?_reverse] at h1
      rw [List.getLastD_eq_getLast?, h1]
      rfl
    refine ⟨q2, ?_, ?_, ?_, ?_⟩
    · rw [hhead, ← hrv]
      exact hrev
    · intro c hc
      rw [← List.mem_reverse, hrv]
      exact List.mem_cons_of_mem h0 hc
    · rw [hhead]
      have h2 : (h0 :: q2).getLast? = some u := by
        rw [← hrv, List.getLast?_reverse]
        rfl
      rw [List.getLastD_eq_getLast?, h2]
      rfl
    · have : (u :: q).reverse.length = (h0 :: q2).length := by rw [hrv]
      simp only [List.length_reverse, List.length_cons] at this
      omega

theorem chain_seg :
    ∀ l : List (Int × Int), List.Chain' knight_adj l → (∀ c ∈ l, on_board c) →
      ∀ u ∈ l, ∀ v ∈ l,
      ∃ q : List (Int × Int), List.Chain' knight_adj (u :: q) ∧
        (∀ c ∈ q, c ∈ l) ∧ (u :: q).getLastD (0, 0) = v ∧ q.length + 1 ≤ l.length
  | [] => by
    intro _ _ u hu
    exact absurd hu (List.not_mem_nil u)
  | c :: l2 => by
    intro hch hb u hu v hv
    rcases List.mem_cons.mp hu with rfl | hu2
    · obtain ⟨q, h1, h2, h3, h4⟩ := chain_path_from_head l2 u hch v hv
      exact ⟨q, h1, h2, h3, by simp only [List.length_cons]; omega⟩
    · rcases List.mem_cons.mp hv with rfl | hv2
      · obtain ⟨q, h1, h2, h3, h4⟩ :=
          chain_path_from_head l2 v hch u (List.mem_cons_of_mem v hu2)
        have hbq : ∀ c2 ∈ v :: q, on_board c2 := by
          intro c2 hc2
          rcases List.mem_cons.mp hc2 with rfl | hc3
          · exact hb c2 (List.mem_cons_self c2 l2)
          · exact hb c2 (h2 c2 hc3)
        obtain ⟨q2, g1, g2, g3, g4⟩ := chain_path_reverse v q h1 hbq
        rw [h3] at g1 g3
        refine ⟨q2, g1, ?_, g3, ?_⟩
        · intro c2 hc2
          rcases List.mem_cons.mp (g2 c2 hc2) with rfl | hc3
          · exact List.mem_cons_self c2 l2
          · exact h2 c2 hc3
        · simp only [List.length_cons]
          omega
      · obtain ⟨q, h1, h2, h3, h4⟩ :=
          chain_seg l2 (List.Chain'.tail hch) (fun c2 hc2 => hb c2 (List.mem_cons_of_mem c hc2))
            u hu2 v hv2
        exact ⟨q, h1, fun c2 hc2 => List.mem_cons_of_mem c (h2 c2 hc2), h3,
          by simp only [List.length_cons]; omega⟩

theorem tour_chain : List.Chain' knight_adj tour := by
  unfold tour
  simp only [List.chain'_cons, List.chain'_singleton, and_true]
  decide

theorem tour_board : ∀ c ∈ tour, on_board c := by decide

theorem tour_mem_fin :
    ∀ i j : Fin 8, (((i : Nat) : Int), ((j : Nat) : Int)) ∈ tour := by decide

/-- The knight graph on the board is connected with diameter at most 63: from
any valid square there is an on-board knight path of at most 63 moves to any
other. -/
theorem tour_connects (a b : Int × Int) (ha : on_board a) (hb2 : on_board b) :
    ∃ q : List (Int × Int), List.Chain' knight_adj (a :: q) ∧
      (∀ c ∈ q, on_board c) ∧ (a :: q).getLastD (0, 0) = b ∧ q.length ≤ 63 := by
  have hmem : ∀ c : Int × Int, on_board c → c ∈ tour := by
    intro c hc
    obtain ⟨i, j, rfl⟩ := on_board_fin c hc
    exact tour_mem_fin i j
  obtain ⟨q, h1, h2, h3, h4⟩ :=
    chain_seg tour tour_chain tour_board a (hmem a ha) b (hmem b hb2)
  have hlen : tour.length = 64 := rfl
  exact ⟨q, h1, fun c hc => tour_board c (h2 c hc), h3, by omega⟩

/-! ### The fueled search loop -/

theorem bfs_layers_length :
    ∀ (n : Nat) (p : List (String × ChessboardLocation) × List ChessboardLocation),
      (HorseMoves.bfs_layers n p).length = n
  | 0, _ => rfl
  | n + 1, p => by
    simp only [HorseMoves.bfs_layers, List.length_cons, bfs_layers_length n]

theorem find_returns :
    ∀ (k fuel : Nat) (h : HorseMoves) (nm : List ChessboardLocation),
      k ≤ fuel →
      HorseMoves.key_mem (HorseMoves.bfs_iter k (h.reached, nm)).1 h.finish_string = true →
      ∃ (j : Nat) (st : HorseMoves), j ≤ k ∧
        h.find_shortest_solutions fuel nm = some st ∧
        st.start_location = h.start_location ∧
        st.finish_location = h.finish_location ∧
        st.finish_string = h.finish_string ∧
        st.reached = (HorseMoves.bfs_iter j (h.reached, nm)).1 ∧
        st.move_tree = h.move_tree ++ HorseMoves.bfs_layers j (h.reached, nm) ∧
        (∀ i < j, HorseMoves.key_mem (HorseMoves.bfs_iter i (h.reached, nm)).1
          h.finish_string = false) := by
  intro k
  induction k with
  | zero =>
    intro fuel h nm hkf hreach
    refine ⟨0, h, le_refl 0, find_of_solved fuel h nm hreach, rfl, rfl, rfl, rfl,
      by simp [HorseMoves.bfs_layers], by omega⟩
  | succ k2 ih =>
    intro fuel h nm hkf hreach
    rcases hsv : h.solved with hfalse | htrue
    · -- not yet solved: the loop runs one pass
      rcases fuel with _ | f2
      · omega
      · have hstep : h.find_shortest_solutions (f2 + 1) nm =
            HorseMoves.find_shortest_solutions f2
              { h with
                move_tree := h.move_tree ++
                  [(HorseMoves.possible_next_moves h.reached nm).map Prod.snd]
                reached := HorseMoves.dict_update h.reached
                  (HorseMoves.possible_next_moves h.reached nm) }
              ((HorseMoves.possible_next_moves h.reached nm).map Prod.snd) := by
          rw [HorseMoves.find_shortest_solutions.eq_def]
          simp [hsv]
        have hpair :
            (({ h with
                move_tree := h.move_tree ++
                  [(HorseMoves.possible_next_moves h.reached nm).map Prod.snd]
                reached := HorseMoves.dict_update h.reached
                  (HorseMoves.possible_next_moves h.reached nm) } : HorseMoves).reached,
              (HorseMoves.possible_next_moves h.reached nm).map Prod.snd) =
            HorseMoves.bfs_step (h.reached, nm) := rfl
        obtain ⟨j2, st, hj2, hfind, he1, he2, he3, he4, he5, he6⟩ :=
          ih f2 _ ((HorseMoves.possible_next_moves h.reached nm).map Prod.snd)
            (by omega)
            (by rw [hpair]; exact hreach)
        refine ⟨j2 + 1, st, by omega, by rw [hstep]; exact hfind, he1, he2, he3, ?_, ?_, ?_⟩
        · rw [he4, hpair]
          rfl
        · rw [he5, hpair]
          simp only [HorseMoves.bfs_layers, List.append_assoc, List.cons_append,
            List.nil_append]
        · intro i hi
          rcases i with _ | i2
          · exact hsv
          · have := he6 i2 (by omega)
            rw [hpair] at this
            exact this
    · refine ⟨0, h, by omega, find_of_solved fuel h nm hsv, rfl, rfl, rfl, rfl,
        by simp [HorseMoves.bfs_layers], by omega⟩

theorem find_some_solved :
    ∀ (fuel : Nat) (h : HorseMoves) (nm : List ChessboardLocation) (st : HorseMoves),
      h.find_shortest_solutions fuel nm = some st → st.solved = true := by
  intro fuel
  induction fuel with
  | zero =>
    intro h nm st hf
    rcases hsv : h.solved with h0 | h0
    · have hnone : h.find_shortest_solutions 0 nm = none := by
        rw [HorseMoves.find_shortest_solutions.eq_def]
        simp [hsv]
      rw [hnone] at hf
      exact Option.noConfusion hf
    · rw [find_of_solved 0 h nm hsv] at hf
      cases hf
      exact hsv
  | succ f2 ih =>
    intro h nm st hf
    rcases hsv : h.solved with h0 | h0
    · have hstep : h.find_shortest_solutions (f2 + 1) nm =
          HorseMoves.find_shortest_solutions f2
            { h with
              move_tree := h.move_tree ++
                [(HorseMoves.possible_next_moves h.reached nm).map Prod.snd]
              reached := HorseMoves.dict_update h.reached
                (HorseMoves.possible_next_moves h.reached nm) }
            ((HorseMoves.possible_next_moves h.reached nm).map Prod.snd) := by
        rw [HorseMoves.find_shortest_solutions.eq_def]
        simp [hsv]
      rw [hstep] at hf
      exact ih _ _ st hf
    · rw [find_of_solved (f2 + 1) h nm hsv] at hf
      cases hf
      exact hsv

theorem target_reached_63 (x1 y1 x2 y2 : Int)
    (h1 : (ChessboardLocation.mk x1 y1 .nil).is_valid = true)
    (h2 : (ChessboardLocation.mk x2 y2 .nil).is_valid = true) :
    HorseMoves.key_mem
      (HorseMoves.bfs_iter 63
        (HorseMoves.bfs_start (ChessboardLocation.mk x1 y1 .nil))).1
      (ChessboardLocation.mk x2 y2 .nil).to_string = true := by
  obtain ⟨q, hchain, hboards, hlast, hlen⟩ :=
    tour_connects (coords (ChessboardLocation.mk x1 y1 .nil))
      (coords (ChessboardLocation.mk x2 y2 .nil))
      ((is_valid_iff _).mp h1) ((is_valid_iff _).mp h2)
  have hp := path_reached (ChessboardLocation.mk x1 y1 .nil) h1 q hchain hboards
  rw [hlast, to_string_coords] at hp
  exact bfs_iter_key_mono q.length 63 _ _ hlen hp

/-- C3: for every pair of valid start and target squares the search loop
`find_shortest_solutions` terminates, appending at most 63 layers before the
target key is present in `reached` (the move tree, starting from its single
initial layer, never exceeds 64 layers). -/
theorem C3_terminates (x1 y1 x2 y2 : Int)
    (h1 : (ChessboardLocation.mk x1 y1 .nil).is_valid = true)
    (h2 : (ChessboardLocation.mk x2 y2 .nil).is_valid = true) :
    ∃ st, (HorseMoves.init (ChessboardLocation.mk x1 y1 .nil)
        (ChessboardLocation.mk x2 y2 .nil)).run_search 63 = some st ∧
      st.move_tree.length ≤ 64 ∧ st.solved = true := by
  have hreach : HorseMoves.key_mem
      (HorseMoves.bfs_iter 63
        ((HorseMoves.init (ChessboardLocation.mk x1 y1 .nil)
          (ChessboardLocation.mk x2 y2 .nil)).reached,
         [ChessboardLocation.mk x1 y1 .nil])).1
      (HorseMoves.init (ChessboardLocation.mk x1 y1 .nil)
        (ChessboardLocation.mk x2 y2 .nil)).finish_string = true :=
    target_reached_63 x1 y1 x2 y2 h1 h2
  obtain ⟨j, st, hj, hfind, -, -, -, -, hmt, -⟩ :=
    find_returns 63 63
      (HorseMoves.init (ChessboardLocation.mk x1 y1 .nil)
        (ChessboardLocation.mk x2 y2 .nil))
      [ChessboardLocation.mk x1 y1 .nil] (le_refl 63) hreach
  refine ⟨st, hfind, ?_, find_some_solved 63 _ _ st hfind⟩
  rw [hmt]
  simp only [List.length_append, bfs_layers_length]
  have : (HorseMoves.init (ChessboardLocation.mk x1 y1 .nil)
      (ChessboardLocation.mk x2 y2 .nil)).move_tree.length = 1 := rfl
  omega

/-- C3 witness at start `A1`, target `B3`. -/
theorem C3_terminates_witness :
    (ChessboardLocation.mk 0 0 .nil).is_valid = true ∧
    (ChessboardLocation.mk 1 2 .nil).is_valid = true ∧
    ∃ st, (HorseMoves.init (ChessboardLocation.mk 0 0 .nil)
        (ChessboardLocation.mk 1 2 .nil)).run_search 63 = some st ∧
      st.move_tree.length ≤ 64 ∧ st.solved = true :=
  ⟨by decide, by decide, C3_terminates 0 0 1 2 (by decide) (by decide)⟩

/-- C10: after `solve` completes for valid start and target squares, the
assertion at the head of `get_solutions` (target key present in `reached`)
holds, so `get_solutions` succeeds exactly when `solve` did. -/
theorem C10_assert_holds (x1 y1 x2 y2 : Int) (fuel : Nat)
    (h1 : (ChessboardLocation.mk x1 y1 .nil).is_valid = true)
    (h2 : (ChessboardLocation.mk x2 y2 .nil).is_valid = true) :
    ((HorseMoves.solve fuel (HorseMoves.init (ChessboardLocation.mk x1 y1 .nil)
        (ChessboardLocation.mk x2 y2 .nil))).bind HorseMoves.get_solutions).isSome =
    (HorseMoves.solve fuel (HorseMoves.init (ChessboardLocation.mk x1 y1 .nil)
        (ChessboardLocation.mk x2 y2 .nil))).isSome := by
  rcases hrun : (HorseMoves.init (ChessboardLocation.mk x1 y1 .nil)
      (ChessboardLocation.mk x2 y2 .nil)).run_search fuel with _ | h3
  · simp [HorseMoves.solve, hrun]
  · rcases hget : HorseMoves.dict_get h3.reached h3.finish_string with _ | final
    · simp [HorseMoves.solve, hrun, hget]
    · have hsl : h3.solved = true :=
        find_some_solved fuel _ _ h3 hrun
      have hsl2 : ({h3 with move_tree :=
          HorseMoves.prune_loop [final] []} : HorseMoves).solved = true := hsl
      simp [HorseMoves.solve, hrun, hget, HorseMoves.get_solutions, hsl2]

/-- C10 witness at start `A1`, target `A1`, fuel 63. -/
theorem C10_assert_holds_witness :
    (ChessboardLocation.mk 0 0 .nil).is_valid = true ∧
    ((HorseMoves.solve 63 (HorseMoves.init (ChessboardLocation.mk 0 0 .nil)
        (ChessboardLocation.mk 0 0 .nil))).bind HorseMoves.get_solutions).isSome =
    (HorseMoves.solve 63 (HorseMoves.init (ChessboardLocation.mk 0 0 .nil)
        (ChessboardLocation.mk 0 0 .nil))).isSome :=
  ⟨by decide, C10_assert_holds 0 0 0 0 63 (by decide) (by decide)⟩

/-! ### The backward pruning pass -/

theorem node_count_list_eq :
    ∀ ps : LocationList, node_count_list ps = (ps.toList.map node_count).sum
  | .nil => rfl
  | .cons h t => by
    simp only [node_count_list, LocationList.toList, List.map_cons, List.sum_cons,
      node_count_list_eq t]

theorem prevs_node_count_lt (l : ChessboardLocation) :
    ((l.get_previous_locations.map node_count).sum) < node_count l := by
  rcases l with ⟨a, b, ps⟩
  show ((ps.toList.map node_count).sum) < node_count (ChessboardLocation.mk a b ps)
  rw [show node_count (ChessboardLocation.mk a b ps) = 1 + node_count_list ps from rfl,
    node_count_list_eq]
  omega

theorem flatMap_prevs_node_count_lt (last : List ChessboardLocation) (hne : last ≠ []) :
    (((last.flatMap ChessboardLocation.get_previous_locations).map node_count).sum) <
      ((last.map node_count).sum) := by
  induction last with
  | nil => exact absurd rfl hne
  | cons m ms ih =>
    simp only [List.flatMap_cons, List.map_append, List.sum_append, List.map_cons,
      List.sum_cons]
    have h1 := prevs_node_count_lt m
    rcases ms with _ | ⟨m2, ms2⟩
    · simp only [List.flatMap_nil, List.map_nil, List.sum_nil]
      omega
    · have h2 := ih (List.cons_ne_nil m2 ms2)
      simp only [List.flatMap_cons, List.map_append, List.sum_append, List.map_cons,
        List.sum_cons] at h2 ⊢
      omega

theorem flatMap_prevs_node_count_le (last : List ChessboardLocation) :
    (((last.flatMap ChessboardLocation.get_previous_locations).map node_count).sum) ≤
      ((last.map node_count).sum) := by
  rcases last with _ | ⟨m, ms⟩
  · simp
  · exact le_of_lt (flatMap_prevs_node_count_lt (m :: ms) (List.cons_ne_nil m ms))

theorem prune_loop_fuel_irrel :
    ∀ (f1 f2 : Nat) (last : List ChessboardLocation) (acc : List (List ChessboardLocation)),
      (last.map node_count).sum < f1 → (last.map node_count).sum < f2 →
      HorseMoves.prune_loop_fuel f1 last acc = HorseMoves.prune_loop_fuel f2 last acc := by
  intro f1
  induction f1 with
  | zero => intro f2 last acc h1; omega
  | succ g1 ih =>
    intro f2 last acc h1 h2
    rcases f2 with _ | g2
    · omega
    · show (if last.isEmpty then acc else _) = (if last.isEmpty then acc else _)
      rcases hemp : last.isEmpty with he | he
      · simp only [hemp, Bool.false_eq_true, if_false]
        have hne : last ≠ [] := by
          intro hnil
          rw [hnil] at hemp
          simp at hemp
        have hlt := flatMap_prevs_node_count_lt last hne
        exact ih g2 _ _ (by omega) (by omega)
      · simp only [hemp, if_true]

theorem prune_loop_eq (last : List ChessboardLocation)
    (acc : List (List ChessboardLocation)) :
    HorseMoves.prune_loop last acc =
      if last.isEmpty then acc
      else HorseMoves.prune_loop
        (last.flatMap ChessboardLocation.get_previous_locations) (last :: acc) := by
  show HorseMoves.prune_loop_fuel ((last.map node_count).sum + 1) last acc = _
  rcases hemp : last.isEmpty with he | he
  · have hne : last ≠ [] := by
      intro hnil
      rw [hnil] at hemp
      simp at hemp
    have hstep : HorseMoves.prune_loop_fuel ((last.map node_count).sum + 1) last acc =
        HorseMoves.prune_loop_fuel ((last.map node_count).sum)
          (last.flatMap ChessboardLocation.get_previous_locations) (last :: acc) := by
      show (if last.isEmpty then acc else _) = _
      simp only [hemp, Bool.false_eq_true, if_false]
    rw [hstep]
    simp only [hemp, Bool.false_eq_true, if_false]
    exact prune_loop_fuel_irrel _ _ _ _
      (flatMap_prevs_node_count_lt last hne) (by omega)
  · show (if last.isEmpty then acc else _) = _
    simp only [hemp, if_true]

theorem routes_head_down (l s p : ChessboardLocation)
    (hp : p ∈ l.get_previous_locations) (h : routes_head l s) : routes_head p s := by
  intro r0 hr0
  have hmem : r0 ++ [l] ∈ l.list_routes :=
    (mem_list_routes l (r0 ++ [l])).mpr (Or.inr ⟨p, hp, r0, hr0, rfl⟩)
  have := h (r0 ++ [l]) hmem
  rcases r0 with _ | ⟨a, r0t⟩
  · exact absurd rfl (route_ne_nil p [] hr0)
  · simpa using this

theorem prune_spec (s : ChessboardLocation) :
    ∀ (n : Nat) (last : List ChessboardLocation) (acc : List (List ChessboardLocation)),
      last ≠ [] → (∀ l ∈ last, routes_len l (n + 1) ∧ routes_head l s) →
      ∃ L : List (List ChessboardLocation),
        HorseMoves.prune_loop last acc = L ++ acc ∧
        L.length = n + 1 ∧
        L.getLast? = some last ∧
        (∀ i (hi : i < L.length), ∀ l ∈ L.get ⟨i, hi⟩,
          routes_len l (i + 1) ∧ routes_head l s) ∧
        (∀ i (hi : i + 1 < L.length),
          L.get ⟨i, by omega⟩ =
            (L.get ⟨i + 1, hi⟩).flatMap ChessboardLocation.get_previous_locations) ∧
        (∀ le ∈ L, le ≠ []) := by
  intro n
  induction n with
  | zero =>
    intro last acc hne hfacts
    have hprevs : ∀ l ∈ last, l.get_previous_locations = [] := fun l hl =>
      routes_len_one l (hfacts l hl).1
    have hflat : last.flatMap ChessboardLocation.get_previous_locations = [] := by
      rw [List.flatMap_eq_nil_iff]
      exact hprevs
    have hempfalse : last.isEmpty = false := by
      rcases last with _ | _
      · exact absurd rfl hne
      · rfl
    rw [prune_loop_eq, hempfalse]
    simp only [Bool.false_eq_true, if_false, hflat]
    rw [prune_loop_eq]
    simp only [List.isEmpty_nil, if_true]
    refine ⟨[last], rfl, rfl, rfl, ?_, ?_, ?_⟩
    · intro i hi l hl
      simp only [List.length_singleton] at hi
      have : i = 0 := by omega
      subst this
      exact hfacts l hl
    · intro i hi
      simp only [List.length_singleton] at hi
      omega
    · intro le hle
      simp only [List.mem_singleton] at hle
      subst hle
      exact hne
  | succ n2 ih =>
    intro last acc hne hfacts
    have hinv : ∀ l ∈ last, l.get_previous_locations ≠ [] ∧
        ∀ p ∈ l.get_previous_locations, routes_len p (n2 + 1) := fun l hl =>
      routes_len_inv l n2 (hfacts l hl).1
    set last2 := last.flatMap ChessboardLocation.get_previous_locations with hlast2
    have hne2 : last2 ≠ [] := by
      rw [hlast2]
      intro hnil
      rw [List.flatMap_eq_nil_iff] at hnil
      rcases last with _ | ⟨m, ms⟩
      · exact hne rfl
      · exact (hinv m (List.mem_cons_self m ms)).1 (hnil m (List.mem_cons_self m ms))
    have hfacts2 : ∀ p ∈ last2, routes_len p (n2 + 1) ∧ routes_head p s := by
      intro p hp
      rw [hlast2, List.mem_flatMap] at hp
      obtain ⟨l, hl, hpl⟩ := hp
      exact ⟨(hinv l hl).2 p hpl, routes_head_down l s p hpl (hfacts l hl).2⟩
    have hempfalse : last.isEmpty = false := by
      rcases last with _ | _
      · exact absurd rfl hne
      · rfl
    obtain ⟨L2, g1, g2, g3, g4, g5, g6⟩ := ih last2 (last :: acc) hne2 hfacts2
    refine ⟨L2 ++ [last], ?_, ?_, ?_, ?_, ?_, ?_⟩
    · rw [prune_loop_eq, hempfalse]
      simp only [Bool.false_eq_true, if_false, ← hlast2, g1, List.append_assoc,
        List.cons_append, List.nil_append]
    · simp only [List.length_append, List.length_singleton, g2]
    · rw [List.getLast?_append]
      rfl
    · intro i hi l hl
      have hi2 : i < (L2 ++ [last]).length := by
        simp only [List.length_append, List.length_singleton]
        simp only [List.length_append, List.length_singleton] at hi
        omega
      rcases Nat.lt_or_ge i L2.length with hlt | hge
      · rw [List.get_eq_getElem, List.getElem_append_left hlt] at hl
        have := g4 i hlt l (by rw [List.get_eq_getElem]; exact hl)
        exact this
      · have hieq : i = L2.length := by
          simp only [List.length_append, List.length_singleton] at hi2
          omega
        rw [List.get_eq_getElem, List.getElem_append_right hge] at hl
        have hsing : ∀ (j : Nat) (hj : j < ([last] : List (List ChessboardLocation)).length),
            ([last] : List (List ChessboardLocation))[j] = last := by
          intro j hj
          exact List.eq_of_mem_singleton (List.getElem_mem hj)
        rw [hsing _ _] at hl
        have := hfacts l hl
        rw [hieq, g2]
        exact this
    · intro i hi
      simp only [List.length_append, List.length_singleton] at hi
      rcases Nat.lt_or_ge (i + 1) L2.length with hlt | hge
      · have hilt : i < L2.length := by omega
        rw [List.get_eq_getElem, List.get_eq_getElem,
          List.getElem_append_left hilt, List.getElem_append_left hlt]
        have := g5 i hlt
        rw [List.get_eq_getElem, List.get_eq_getElem] at this
        exact this
      · have hieq : i + 1 = L2.length := by omega
        have hilt : i < L2.length := by omega
        rw [List.get_eq_getElem, List.get_eq_getElem,
          List.getElem_append_left hilt, List.getElem_append_right hge]
        have hsing : ∀ (j : Nat) (hj : j < ([last] : List (List ChessboardLocation)).length),
            ([last] : List (List ChessboardLocation))[j] = last := by
          intro j hj
          exact List.eq_of_mem_singleton (List.getElem_mem hj)
        rw [hsing _ _]
        have hne3 : L2 ≠ [] := by
          intro hnil
          rw [hnil] at g2
          simp at g2
        have hlastval : L2.getLast hne3 = last2 := by
          have := List.getLast?_eq_getLast L2 hne3
          rw [this] at g3
          exact Option.some.inj g3
        show L2.get ⟨i, hilt⟩ = last.flatMap ChessboardLocation.get_previous_locations
        have hieq2 : i = L2.length - 1 := by omega
        subst hieq2
        have hidx : L2.get ⟨L2.length - 1, hilt⟩ = L2.getLast hne3 := by
          rw [List.getLast_eq_getElem L2 hne3, List.get_eq_getElem]
        rw [hidx, hlastval]
    · intro le hle
      rcases List.mem_append.mp hle with h0 | h0
      · exact g6 le h0
      · simp only [List.mem_singleton] at h0
        subst h0
        exact hne

/-! ### Route lengths along the search -/

theorem frontier_routes (x y : Int) (n : Nat) :
    ∀ l ∈ (HorseMoves.bfs_iter n
        (HorseMoves.bfs_start (ChessboardLocation.mk x y .nil))).2,
      routes_len l (n + 1) ∧ routes_head l (ChessboardLocation.mk x y .nil) := by
  induction n with
  | zero =>
    intro l hl
    simp only [HorseMoves.bfs_iter, HorseMoves.bfs_start, List.mem_singleton] at hl
    subst hl
    exact ⟨routes_len_of_no_prev _ rfl, routes_head_of_no_prev _ rfl⟩
  | succ m ih =>
    intro l hl
    rw [bfs_iter_succ_back, bfs_step_frontier] at hl
    obtain ⟨kv, hkv, hkve⟩ := List.mem_map.mp hl
    subst hkve
    obtain ⟨-, -, hne, hprev⟩ := pnm_entry _ _ kv hkv
    exact ⟨routes_len_step kv.2 (m + 1) hne (fun p hp => (ih p (hprev p hp).1).1),
      routes_head_step kv.2 _ hne (fun p hp => (ih p (hprev p hp).1).2)⟩

theorem dict_get_append_right (d1 d2 : List (String × ChessboardLocation)) (k : String)
    (h : HorseMoves.key_mem d1 k = false) :
    HorseMoves.dict_get (d1 ++ d2) k = HorseMoves.dict_get d2 k := by
  unfold HorseMoves.dict_get
  rw [List.find?_append]
  have hnone : d1.find? (fun kv => kv.1 == k) = none := by
    rw [List.find?_eq_none]
    intro kv hkv
    have := (key_mem_false_iff _ _).mp h kv hkv
    simpa using this
  rw [hnone]
  rfl

theorem final_location_routes (x y : Int) (k : String) (j : Nat)
    (hleast : ∀ i < j, HorseMoves.key_mem
      (HorseMoves.bfs_iter i (HorseMoves.bfs_start (ChessboardLocation.mk x y .nil))).1 k
      = false)
    (v : ChessboardLocation)
    (hget : HorseMoves.dict_get
      (HorseMoves.bfs_iter j (HorseMoves.bfs_start (ChessboardLocation.mk x y .nil))).1 k
      = some v) :
    routes_len v (j + 1) ∧ routes_head v (ChessboardLocation.mk x y .nil) := by
  rcases j with _ | m
  · have hv : v = ChessboardLocation.mk x y .nil := by
      simp only [HorseMoves.bfs_iter, HorseMoves.bfs_start, HorseMoves.dict_get] at hget
      rcases hf : List.find?
          (fun kv => kv.1 == k) [((ChessboardLocation.mk x y .nil).to_string,
            ChessboardLocation.mk x y .nil)] with _ | kv
      · rw [hf] at hget
        exact Option.noConfusion hget
      · rw [hf] at hget
        have hm := List.mem_of_find?_eq_some hf
        simp only [List.mem_singleton] at hm
        subst hm
        simpa using hget.symm
    subst hv
    exact ⟨routes_len_of_no_prev _ rfl, routes_head_of_no_prev _ rfl⟩
  · rw [bfs_iter_succ_back, bfs_step_reached,
      dict_get_append_right _ _ k (hleast m (by omega))] at hget
    have hmem := dict_get_mem _ _ _ hget
    have hfr : v ∈ (HorseMoves.bfs_iter (m + 1)
        (HorseMoves.bfs_start (ChessboardLocation.mk x y .nil))).2 := by
      rw [bfs_iter_succ_back, bfs_step_frontier]
      exact List.mem_map_of_mem Prod.snd hmem
    exact frontier_routes x y (m + 1) v hfr

theorem find_some_spec :
    ∀ (fuel : Nat) (h : HorseMoves) (nm : List ChessboardLocation) (st : HorseMoves),
      h.find_shortest_solutions fuel nm = some st →
      ∃ j : Nat,
        st.start_location = h.start_location ∧
        st.finish_location = h.finish_location ∧
        st.finish_string = h.finish_string ∧
        st.reached = (HorseMoves.bfs_iter j (h.reached, nm)).1 ∧
        st.move_tree = h.move_tree ++ HorseMoves.bfs_layers j (h.reached, nm) ∧
        (∀ i < j, HorseMoves.key_mem (HorseMoves.bfs_iter i (h.reached, nm)).1
          h.finish_string = false) := by
  intro fuel
  induction fuel with
  | zero =>
    intro h nm st hf
    rcases hsv : h.solved with h0 | h0
    · have hnone : h.find_shortest_solutions 0 nm = none := by
        rw [HorseMoves.find_shortest_solutions.eq_def]
        simp [hsv]
      rw [hnone] at hf
      exact Option.noConfusion hf
    · rw [find_of_solved 0 h nm hsv] at hf
      cases hf
      exact ⟨0, rfl, rfl, rfl, rfl, by simp [HorseMoves.bfs_layers], by omega⟩
  | succ f2 ih =>
    intro h nm st hf
    rcases hsv : h.solved with h0 | h0
    · have hstep : h.find_shortest_solutions (f2 + 1) nm =
          HorseMoves.find_shortest_solutions f2
            { h with
              move_tree := h.move_tree ++
                [(HorseMoves.possible_next_moves h.reached nm).map Prod.snd]
              reached := HorseMoves.dict_update h.reached
                (HorseMoves.possible_next_moves h.reached nm) }
            ((HorseMoves.possible_next_moves h.reached nm).map Prod.snd) := by
        rw [HorseMoves.find_shortest_solutions.eq_def]
        simp [hsv]
      rw [hstep] at hf
      obtain ⟨j2, he1, he2, he3, he4, he5, he6⟩ := ih _ _ st hf
      have hpair :
          (({ h with
              move_tree := h.move_tree ++
                [(HorseMoves.possible_next_moves h.reached nm).map Prod.snd]
              reached := HorseMoves.dict_update h.reached
                (HorseMoves.possible_next_moves h.reached nm) } : HorseMoves).reached,
            (HorseMoves.possible_next_moves h.reached nm).map Prod.snd) =
          HorseMoves.bfs_step (h.reached, nm) := rfl
      refine ⟨j2 + 1, he1, he2, he3, ?_, ?_, ?_⟩
      · rw [he4, hpair]
        rfl
      · rw [he5, hpair]
        simp only [HorseMoves.bfs_layers, List.append_assoc, List.cons_append,
          List.nil_append]
      · intro i hi
        rcases i with _ | i2
        · exact hsv
        · have := he6 i2 (by omega)
          rw [hpair] at this
          exact this
    · rw [find_of_solved (f2 + 1) h nm hsv] at hf
      cases hf
      exact ⟨0, rfl, rfl, rfl, rfl, by simp [HorseMoves.bfs_layers], by omega⟩

theorem solve_spec (x1 y1 x2 y2 : Int) (fuel : Nat) (st : HorseMoves)
    (hsolve : HorseMoves.solve fuel
      (HorseMoves.init (ChessboardLocation.mk x1 y1 .nil)
        (ChessboardLocation.mk x2 y2 .nil)) = some st) :
    ∃ (j : Nat) (final : ChessboardLocation) (L : List (List ChessboardLocation)),
      st.reached = (HorseMoves.bfs_iter j
        (HorseMoves.bfs_start (ChessboardLocation.mk x1 y1 .nil))).1 ∧
      st.finish_string = (ChessboardLocation.mk x2 y2 .nil).to_string ∧
      HorseMoves.dict_get st.reached st.finish_string = some final ∧
      routes_len final (j + 1) ∧
      routes_head final (ChessboardLocation.mk x1 y1 .nil) ∧
      st.move_tree = L ∧ L.length = j + 1 ∧ L.getLast? = some [final] ∧
      (∀ i (hi : i < L.length), ∀ l ∈ L.get ⟨i, hi⟩,
        routes_len l (i + 1) ∧ routes_head l (ChessboardLocation.mk x1 y1 .nil)) ∧
      (∀ i (hi : i + 1 < L.length),
        L.get ⟨i, by omega⟩ =
          (L.get ⟨i + 1, hi⟩).flatMap ChessboardLocation.get_previous_locations) ∧
      (∀ le ∈ L, le ≠ []) ∧
      st.get_solutions = some final.list_routes ∧
      (∀ i < j, HorseMoves.key_mem
        (HorseMoves.bfs_iter i
          (HorseMoves.bfs_start (ChessboardLocation.mk x1 y1 .nil))).1
        ((ChessboardLocation.mk x2 y2 .nil).to_string) = false) := by
  rcases hrun : (HorseMoves.init (ChessboardLocation.mk x1 y1 .nil)
      (ChessboardLocation.mk x2 y2 .nil)).run_search fuel with _ | h3
  · simp only [HorseMoves.solve, hrun] at hsolve
    exact Option.noConfusion hsolve
  · rcases hget : HorseMoves.dict_get h3.reached h3.finish_string with _ | final
    · simp only [HorseMoves.solve, hrun, hget] at hsolve
      exact Option.noConfusion hsolve
    · simp only [HorseMoves.solve, hrun, hget, Option.some.injEq] at hsolve
      have hst : st = { h3 with move_tree := HorseMoves.prune_loop [final] [] } :=
        hsolve.symm
      obtain ⟨j, hf1, hf2, hf3, hf4, hf5, hf6⟩ :=
        find_some_spec fuel _ _ h3 hrun
      have hfs : h3.finish_string = (ChessboardLocation.mk x2 y2 .nil).to_string := hf3
      have hre : h3.reached = (HorseMoves.bfs_iter j
          (HorseMoves.bfs_start (ChessboardLocation.mk x1 y1 .nil))).1 := hf4
      have hleast : ∀ i < j, HorseMoves.key_mem
          (HorseMoves.bfs_iter i
            (HorseMoves.bfs_start (ChessboardLocation.mk x1 y1 .nil))).1
          ((ChessboardLocation.mk x2 y2 .nil).to_string) = false := by
        intro i hi
        exact hf6 i hi
      have hget2 : HorseMoves.dict_get
          (HorseMoves.bfs_iter j
            (HorseMoves.bfs_start (ChessboardLocation.mk x1 y1 .nil))).1
          ((ChessboardLocation.mk x2 y2 .nil).to_string) = some final := by
        rw [← hre, ← hfs]
        exact hget
      obtain ⟨hrl, hrh⟩ :=
        final_location_routes x1 y1 ((ChessboardLocation.mk x2 y2 .nil).to_string) j
          hleast final hget2
      obtain ⟨L, hp1, hp2, hp3, hp4, hp5, hp6⟩ :=
        prune_spec (ChessboardLocation.mk x1 y1 .nil) j [final] []
          (List.cons_ne_nil final []) (by
            intro l hl
            simp only [List.mem_singleton] at hl
            subst hl
            exact ⟨hrl, hrh⟩)
      rw [List.append_nil] at hp1
      have hsolved : h3.solved = true := find_some_solved fuel _ _ h3 hrun
      refine ⟨j, final, L, ?_, ?_, ?_, hrl, hrh, ?_, hp2, hp3, hp4, hp5, hp6, ?_, hleast⟩
      · rw [hst]
        exact hre
      · rw [hst]
        exact hfs
      · rw [hst]
        exact hget
      · rw [hst]
        simpa using hp1
      · rw [hst]
        have hsv2 : ({ h3 with move_tree :=
            HorseMoves.prune_loop [final] [] } : HorseMoves).solved = true := hsolved
        simp [HorseMoves.get_solutions, hsv2, hget]

/-- C1: every route returned by `get_solutions` after a completed `solve` has
the same number of squares, equal to the number of layers of the move tree: so
the move count is the layer count minus one, the same for all routes. -/
theorem C1_route_lengths (x1 y1 x2 y2 : Int) (fuel : Nat)
    (h1 : (ChessboardLocation.mk x1 y1 .nil).is_valid = true)
    (h2 : (ChessboardLocation.mk x2 y2 .nil).is_valid = true)
    (hsome : (HorseMoves.solve fuel
      (HorseMoves.init (ChessboardLocation.mk x1 y1 .nil)
        (ChessboardLocation.mk x2 y2 .nil))).isSome = true) :
    ∃ st routes, HorseMoves.solve fuel
        (HorseMoves.init (ChessboardLocation.mk x1 y1 .nil)
          (ChessboardLocation.mk x2 y2 .nil)) = some st ∧
      st.get_solutions = some routes ∧ routes ≠ [] ∧
      ∀ r ∈ routes, r.length = st.move_tree.length := by
  obtain ⟨st, hst⟩ := Option.isSome_iff_exists.mp hsome
  obtain ⟨j, final, L, -, -, -, hrl, -, hmt, hlen, -, -, -, -, hgs, -⟩ :=
    solve_spec x1 y1 x2 y2 fuel st hst
  refine ⟨st, final.list_routes, hst, hgs, list_routes_ne_nil final, ?_⟩
  intro r hr
  rw [hmt, hlen]
  exact hrl r hr

/-- C1 witness at `A1` to `B3` with fuel 63. -/
theorem C1_route_lengths_witness :
    (ChessboardLocation.mk 0 0 .nil).is_valid = true ∧
    (HorseMoves.solve 63
      (HorseMoves.init (ChessboardLocation.mk 0 0 .nil)
        (ChessboardLocation.mk 1 2 .nil))).isSome = true ∧
    ∃ st routes, HorseMoves.solve 63
        (HorseMoves.init (ChessboardLocation.mk 0 0 .nil)
          (ChessboardLocation.mk 1 2 .nil)) = some st ∧
      st.get_solutions = some routes ∧ routes ≠ [] ∧
      ∀ r ∈ routes, r.length = st.move_tree.length :=
  ⟨by decide, by decide, C1_route_lengths 0 0 1 2 63 (by decide) (by decide) (by decide)⟩

/-- C2: after `solve` completes for valid start and target squares, the pruned
move tree's first layer holds only the start square (and is nonempty), its last
layer is exactly the singleton of the square stored under the target's key
(whose coordinates are the target's), and every square at depth `d > 0` has at
least one predecessor at depth `d - 1` that is also in the pruned tree. -/
theorem C2_pruned_layers (x1 y1 x2 y2 : Int) (fuel : Nat) (st : HorseMoves)
    (h1 : (ChessboardLocation.mk x1 y1 .nil).is_valid = true)
    (h2 : (ChessboardLocation.mk x2 y2 .nil).is_valid = true)
    (hsolve : HorseMoves.solve fuel
      (HorseMoves.init (ChessboardLocation.mk x1 y1 .nil)
        (ChessboardLocation.mk x2 y2 .nil)) = some st) :
    st.move_tree ≠ [] ∧
    (∃ first, st.move_tree.head? = some first ∧ first ≠ [] ∧
      ∀ l ∈ first, l = ChessboardLocation.mk x1 y1 .nil) ∧
    (∃ final, st.move_tree.getLast? = some [final] ∧
      final.x = x2 ∧ final.y = y2) ∧
    (∀ d (hd : d < st.move_tree.length), 0 < d →
      ∀ l ∈ st.move_tree.get ⟨d, hd⟩,
        ∃ p, p ∈ l.get_previous_locations ∧
          p ∈ st.move_tree.get ⟨d - 1, Nat.lt_of_le_of_lt (Nat.pred_le d) hd⟩) := by
  obtain ⟨j, final, L, hre, hfs, hget, -, -, hmt, hlen, hlast, hlevels, hlink, hnonnil, -, -⟩ :=
    solve_spec x1 y1 x2 y2 fuel st hsolve
  rcases hL : L with _ | ⟨first, Lt⟩
  · rw [hL] at hlen
    simp at hlen
  subst hL
  refine ⟨by rw [hmt]; exact List.cons_ne_nil first Lt, ?_, ?_, ?_⟩
  · refine ⟨first, by rw [hmt]; rfl,
      hnonnil first (List.mem_cons_self first Lt), ?_⟩
    intro l hl
    obtain ⟨hl1, hlh⟩ := hlevels 0 (by simp) l hl
    have hnp : l.get_previous_locations = [] := routes_len_one l hl1
    have hr : l.list_routes = [[l]] := list_routes_of_no_prev l hnp
    have := hlh [l] (by rw [hr]; exact List.mem_singleton.mpr rfl)
    simpa using this
  · rw [hre, hfs] at hget
    have hmem := dict_get_mem _ _ _ hget
    obtain ⟨hkey, hval⟩ := bfs_iter_entry (ChessboardLocation.mk x1 y1 .nil) h1 j _ hmem
    have hco := to_string_inj final (ChessboardLocation.mk x2 y2 .nil) hval h2 hkey.symm
    simp only [coords, coords_mk, Prod.mk.injEq] at hco
    exact ⟨final, by rw [hmt]; exact hlast, hco.1, hco.2⟩
  · intro d hd hd0 l hl
    revert hl
    revert hd
    rw [hmt]
    intro hd hl
    obtain ⟨e, rfl⟩ : ∃ e, d = e + 1 := ⟨d - 1, by omega⟩
    obtain ⟨hl1, -⟩ := hlevels (e + 1) hd l hl
    obtain ⟨hne, -⟩ := routes_len_inv l e hl1
    obtain ⟨p, hp⟩ : ∃ p, p ∈ l.get_previous_locations := by
      rcases hq : l.get_previous_locations with _ | ⟨p, ps⟩
      · exact absurd hq hne
      · exact ⟨p, hq ▸ List.mem_cons_self p ps⟩
    refine ⟨p, hp, ?_⟩
    have hlk := hlink e hd
    have hmem : p ∈ ((first :: Lt).get ⟨e + 1, hd⟩).flatMap
        ChessboardLocation.get_previous_locations :=
      List.mem_flatMap.mpr ⟨l, hl, hp⟩
    rw [← hlk] at hmem
    exact hmem

/-- C2 witness at `A1` to `C2` with fuel 63. -/
theorem C2_pruned_layers_witness :
    (ChessboardLocation.mk 0 0 .nil).is_valid = true ∧
    (ChessboardLocation.mk 2 1 .nil).is_valid = true ∧
    ∃ st, HorseMoves.solve 63
        (HorseMoves.init (ChessboardLocation.mk 0 0 .nil)
          (ChessboardLocation.mk 2 1 .nil)) = some st ∧
      st.move_tree ≠ [] ∧
      (∃ first, st.move_tree.head? = some first ∧ first ≠ [] ∧
        ∀ l ∈ first, l = ChessboardLocation.mk 0 0 .nil) ∧
      (∃ final, st.move_tree.getLast? = some [final] ∧
        final.x = 2 ∧ final.y = 1) := by
  have hsome : (HorseMoves.solve 63
      (HorseMoves.init (ChessboardLocation.mk 0 0 .nil)
        (ChessboardLocation.mk 2 1 .nil))).isSome = true := by decide
  obtain ⟨st, hs⟩ := Option.isSome_iff_exists.mp hsome
  obtain ⟨g1, g2, g3, -⟩ := C2_pruned_layers 0 0 2 1 63 st (by decide) (by decide) hs
  exact ⟨by decide, by decide, st, hs, g1, g2, g3⟩

theorem key_mem_of_get (d : List (String × ChessboardLocation)) (k : String)
    (v : ChessboardLocation) (h : HorseMoves.dict_get d k = some v) :
    HorseMoves.key_mem d k = true := by
  rw [key_mem_isSome_find]
  simp only [HorseMoves.dict_get, Option.map_eq_some'] at h
  obtain ⟨kv, hf, -⟩ := h
  rw [hf]
  rfl

theorem bfs_iter_prefix (p : List (String × ChessboardLocation) × List ChessboardLocation)
    (n m : Nat) (h : n ≤ m) :
    ∃ d2, (HorseMoves.bfs_iter m p).1 = (HorseMoves.bfs_iter n p).1 ++ d2 := by
  induction m with
  | zero =>
    have : n = 0 := Nat.le_zero.mp h
    subst this
    exact ⟨[], (List.append_nil _).symm⟩
  | succ m2 ih =>
    rcases Nat.lt_or_ge n (m2 + 1) with hlt | hge
    · obtain ⟨d2, hd2⟩ := ih (Nat.lt_succ_iff.mp hlt)
      refine ⟨d2 ++ HorseMoves.possible_next_moves
        (HorseMoves.bfs_iter m2 p).1 (HorseMoves.bfs_iter m2 p).2, ?_⟩
      rw [bfs_iter_succ_back, bfs_step_reached, ← List.append_assoc, ← hd2]
    · have : n = m2 + 1 := Nat.le_antisymm h hge
      subst this
      exact ⟨[], (List.append_nil _).symm⟩

/-- C5: once a square's key is present in `reached` after BFS iteration `n`,
the binding — including the recorded predecessor set of the stored square — is
identical at every later iteration, so the square never gains a predecessor
after the single `possible_next_moves` pass that created its entry; and no
element of any later frontier layer carries that key, so the square is never
added to a later layer again. -/
theorem C5_reached_immutable (s : ChessboardLocation) (k : String)
    (v : ChessboardLocation) (n : Nat)
    (hv : HorseMoves.dict_get
      (HorseMoves.bfs_iter n (HorseMoves.bfs_start s)).1 k = some v) :
    (∀ m, n ≤ m → HorseMoves.dict_get
      (HorseMoves.bfs_iter m (HorseMoves.bfs_start s)).1 k = some v) ∧
    (∀ m, n < m → ∀ l ∈ (HorseMoves.bfs_iter m (HorseMoves.bfs_start s)).2,
      l.to_string ≠ k) := by
  have hk : HorseMoves.key_mem
      (HorseMoves.bfs_iter n (HorseMoves.bfs_start s)).1 k = true :=
    key_mem_of_get _ _ _ hv
  constructor
  · intro m hm
    obtain ⟨d2, hd2⟩ := bfs_iter_prefix (HorseMoves.bfs_start s) n m hm
    rw [hd2, dict_get_append_left _ _ _ hk]
    exact hv
  · intro m hm l hl
    obtain ⟨m2, rfl⟩ : ∃ m2, m = m2 + 1 := ⟨m - 1, by omega⟩
    rw [bfs_iter_succ_back, bfs_step_frontier] at hl
    obtain ⟨kv, hkv, hsnd⟩ := List.mem_map.mp hl
    intro heq
    have hent := (pnm_entry _ _ kv hkv).1
    have hfresh := (pnm_keys _ _).2 kv hkv
    have hkm2 : HorseMoves.key_mem
        (HorseMoves.bfs_iter m2 (HorseMoves.bfs_start s)).1 k = true :=
      bfs_iter_key_mono n m2 _ k (by omega) hk
    rw [hent, hsnd, heq] at hfresh
    rw [hfresh] at hkm2
    exact Bool.noConfusion hkm2

/-- C5 witness: the start square `A1` at iteration 0. -/
theorem C5_reached_immutable_witness :
    HorseMoves.dict_get
      (HorseMoves.bfs_iter 0
        (HorseMoves.bfs_start (ChessboardLocation.mk 0 0 .nil))).1
      ((ChessboardLocation.mk 0 0 .nil).to_string) =
      some (ChessboardLocation.mk 0 0 .nil) ∧
    ((∀ m, 0 ≤ m → HorseMoves.dict_get
      (HorseMoves.bfs_iter m
        (HorseMoves.bfs_start (ChessboardLocation.mk 0 0 .nil))).1
      ((ChessboardLocation.mk 0 0 .nil).to_string) =
      some (ChessboardLocation.mk 0 0 .nil)) ∧
    (∀ m, 0 < m → ∀ l ∈ (HorseMoves.bfs_iter m
        (HorseMoves.bfs_start (ChessboardLocation.mk 0 0 .nil))).2,
      l.to_string ≠ (ChessboardLocation.mk 0 0 .nil).to_string)) :=
  ⟨rfl, C5_reached_immutable (ChessboardLocation.mk 0 0 .nil)
    ((ChessboardLocation.mk 0 0 .nil).to_string)
    (ChessboardLocation.mk 0 0 .nil) 0 rfl⟩

set_option maxRecDepth 40000 in
set_option maxHeartbeats 8000000 in
/-- C4: for the concrete input start `A1` and target `H8` the engine
terminates with a minimum distance of 6 moves: the pruned move tree has 7
layers, at least one route is returned, and every returned route has exactly
7 squares (6 moves). -/
theorem C4_a1_h8_distance :
    ∃ st routes,
      HorseMoves.solve 63
        (HorseMoves.init (ChessboardLocation.mk 0 0 .nil)
          (ChessboardLocation.mk 7 7 .nil)) = some st ∧
      st.move_tree.length = 7 ∧
      st.get_solutions = some routes ∧ routes ≠ [] ∧
      ∀ r ∈ routes, r.length = 7 := by
  have hsome : (HorseMoves.solve 63
      (HorseMoves.init (ChessboardLocation.mk 0 0 .nil)
        (ChessboardLocation.mk 7 7 .nil))).isSome = true := by decide
  obtain ⟨st, hst⟩ := Option.isSome_iff_exists.mp hsome
  obtain ⟨j, final, L, hre, hfs, hget, hrl, -, hmt, hlen, -, -, -, -, hgs, hleast⟩ :=
    solve_spec 0 0 7 7 63 st hst
  have h6 : HorseMoves.key_mem
      (HorseMoves.bfs_iter 6
        (HorseMoves.bfs_start (ChessboardLocation.mk 0 0 .nil))).1
      ((ChessboardLocation.mk 7 7 .nil).to_string) = true := by decide
  have h5 : HorseMoves.key_mem
      (HorseMoves.bfs_iter 5
        (HorseMoves.bfs_start (ChessboardLocation.mk 0 0 .nil))).1
      ((ChessboardLocation.mk 7 7 .nil).to_string) = false := by decide
  have hj : j = 6 := by
    rcases Nat.lt_trichotomy j 6 with hlt | heq | hgt
    · have hkj : HorseMoves.key_mem
          (HorseMoves.bfs_iter j
            (HorseMoves.bfs_start (ChessboardLocation.mk 0 0 .nil))).1
          ((ChessboardLocation.mk 7 7 .nil).to_string) = true := by
        rw [← hre, ← hfs]
        exact key_mem_of_get _ _ _ hget
      have h5' := bfs_iter_key_mono j 5 _ _ (by omega) hkj
      rw [h5] at h5'
      exact Bool.noConfusion h5'
    · exact heq
    · have := hleast 6 hgt
      rw [h6] at this
      exact Bool.noConfusion this
  subst hj
  refine ⟨st, final.list_routes, hst, ?_, hgs, list_routes_ne_nil final, ?_⟩
  · rw [hmt, hlen]
  · intro r hr
    exact hrl r hr

/-! ### Symmetry of the search: paths, frontiers and route enumeration -/

theorem chain_snoc (s0 c : Int × Int) (q : List (Int × Int))
    (hch : List.Chain' knight_adj (s0 :: q))
    (hadj : knight_adj ((s0 :: q).getLastD (0, 0)) c) :
    List.Chain' knight_adj (s0 :: (q ++ [c])) ∧
      (s0 :: (q ++ [c])).getLastD (0, 0) = c := by
  constructor
  · rw [show (s0 :: (q ++ [c])) = (s0 :: q) ++ [c] from by rw [List.cons_append]]
    rw [List.chain'_append]
    refine ⟨hch, List.chain'_singleton c, ?_⟩
    intro x hx y hy
    have hlast : (s0 :: q).getLast? = some ((s0 :: q).getLastD (0, 0)) := by
      rw [List.getLastD_eq_getLast?, List.getLast?_eq_getLast _ (List.cons_ne_nil s0 q)]
      rfl
    rw [hlast, Option.mem_def, Option.some.injEq] at hx
    simp only [List.head?_cons, Option.mem_def, Option.some.injEq] at hy
    subst hy
    rw [hx] at hadj
    exact hadj
  · rw [show (s0 :: (q ++ [c])) = (s0 :: q) ++ [c] from by rw [List.cons_append],
      List.getLastD_concat]

theorem frontier_valid (s : ChessboardLocation) (hs : s.is_valid = true) (n : Nat) :
    ∀ l ∈ (HorseMoves.bfs_iter n (HorseMoves.bfs_start s)).2, l.is_valid = true := by
  rcases n with _ | m
  · intro l hl
    simp only [HorseMoves.bfs_iter, HorseMoves.bfs_start, List.mem_singleton] at hl
    subst hl
    exact hs
  · intro l hl
    rw [bfs_iter_succ_back, bfs_step_frontier] at hl
    obtain ⟨kv, hkv, rfl⟩ := List.mem_map.mp hl
    exact (pnm_entry _ _ kv hkv).2.1

theorem final_in_frontier (x y : Int) (k : String) (j : Nat)
    (hleast : ∀ i < j, HorseMoves.key_mem
      (HorseMoves.bfs_iter i (HorseMoves.bfs_start (ChessboardLocation.mk x y .nil))).1 k
      = false)
    (v : ChessboardLocation)
    (hget : HorseMoves.dict_get
      (HorseMoves.bfs_iter j (HorseMoves.bfs_start (ChessboardLocation.mk x y .nil))).1 k
      = some v) :
    v ∈ (HorseMoves.bfs_iter j
      (HorseMoves.bfs_start (ChessboardLocation.mk x y .nil))).2 := by
  rcases j with _ | m
  · have hv : v = ChessboardLocation.mk x y .nil := by
      simp only [HorseMoves.bfs_iter, HorseMoves.bfs_start, HorseMoves.dict_get] at hget
      rcases hf : List.find?
          (fun kv => kv.1 == k) [((ChessboardLocation.mk x y .nil).to_string,
            ChessboardLocation.mk x y .nil)] with _ | kv
      · rw [hf] at hget
        exact Option.noConfusion hget
      · rw [hf] at hget
        have hm := List.mem_of_find?_eq_some hf
        simp only [List.mem_singleton] at hm
        subst hm
        simpa using hget.symm
    subst hv
    simp [HorseMoves.bfs_iter, HorseMoves.bfs_start]
  · rw [bfs_iter_succ_back, bfs_step_reached,
      dict_get_append_right _ _ k (hleast m (by omega))] at hget
    have hmem := dict_get_mem _ _ _ hget
    rw [bfs_iter_succ_back, bfs_step_frontier]
    exact List.mem_map_of_mem Prod.snd hmem

theorem reach_path_symm (a b : Int × Int) (ha : on_board a) (hb : on_board b)
    (n : Nat) (h : reach_path a b n) : reach_path b a n := by
  obtain ⟨q, hch, hbd, hlast, hlen⟩ := h
  have hbd2 : ∀ c ∈ a :: q, on_board c := by
    intro c hc
    rcases List.mem_cons.mp hc with rfl | h2
    · exact ha
    · exact hbd c h2
  obtain ⟨q2, hch2, hmem2, hlast2, hlen2⟩ := chain_path_reverse a q hch hbd2
  rw [hlast] at hch2 hlast2
  refine ⟨q2, hch2, ?_, hlast2, by omega⟩
  intro c hc
  exact hbd2 c (hmem2 c hc)

theorem bfs_sound (s : ChessboardLocation) (hs : s.is_valid = true) :
    ∀ n : Nat,
      (∀ kv ∈ (HorseMoves.bfs_iter n (HorseMoves.bfs_start s)).1,
        reach_path (coords s) (coords kv.2) n) ∧
      (∀ l ∈ (HorseMoves.bfs_iter n (HorseMoves.bfs_start s)).2,
        reach_path (coords s) (coords l) n) := by
  intro n
  induction n with
  | zero =>
    constructor
    · intro kv hkv
      simp only [HorseMoves.bfs_iter, HorseMoves.bfs_start, List.mem_singleton] at hkv
      subst hkv
      exact ⟨[], List.chain'_singleton _, by simp, rfl, by simp⟩
    · intro l hl
      simp only [HorseMoves.bfs_iter, HorseMoves.bfs_start, List.mem_singleton] at hl
      subst hl
      exact ⟨[], List.chain'_singleton _, by simp, rfl, by simp⟩
  | succ m ih =>
    have hfr : ∀ l ∈ (HorseMoves.bfs_iter (m + 1) (HorseMoves.bfs_start s)).2,
        reach_path (coords s) (coords l) (m + 1) := by
      intro l hl
      rw [bfs_iter_succ_back, bfs_step_frontier] at hl
      obtain ⟨kv, hkv, rfl⟩ := List.mem_map.mp hl
      obtain ⟨-, hval, hne, hprev⟩ := pnm_entry _ _ kv hkv
      obtain ⟨p, hp⟩ : ∃ p, p ∈ kv.2.get_previous_locations := by
        rcases hq : kv.2.get_previous_locations with _ | ⟨p, ps⟩
        · exact absurd hq hne
        · exact ⟨p, hq ▸ List.mem_cons_self p ps⟩
      obtain ⟨hpls, hadj⟩ := hprev p hp
      obtain ⟨q, hch, hbd, hlast, hlen⟩ := ih.2 p hpls
      obtain ⟨hch2, hlast2⟩ := chain_snoc (coords s) (coords kv.2) q hch
        (by rw [hlast]; exact hadj)
      refine ⟨q ++ [coords kv.2], hch2, ?_, hlast2,
        by simp only [List.length_append, List.length_singleton]; omega⟩
      intro c hc
      rcases List.mem_append.mp hc with h1 | h1
      · exact hbd c h1
      · simp only [List.mem_singleton] at h1
        subst h1
        exact (is_valid_iff _).mp hval
    constructor
    · intro kv hkv
      rw [bfs_iter_succ_back, bfs_step_reached] at hkv
      rcases List.mem_append.mp hkv with hold | hnew
      · obtain ⟨q, h1, h2, h3, h4⟩ := ih.1 kv hold
        exact ⟨q, h1, h2, h3, by omega⟩
      · refine hfr kv.2 ?_
        rw [bfs_iter_succ_back, bfs_step_frontier]
        exact List.mem_map_of_mem Prod.snd hnew
    · exact hfr

theorem key_reach (s : ChessboardLocation) (hs : s.is_valid = true)
    (c : ChessboardLocation) (hc : c.is_valid = true) (n : Nat) :
    HorseMoves.key_mem (HorseMoves.bfs_iter n (HorseMoves.bfs_start s)).1
      c.to_string = true ↔ reach_path (coords s) (coords c) n := by
  constructor
  · intro h
    obtain ⟨kv, hkv, hk⟩ := (key_mem_iff _ _).mp h
    obtain ⟨hkey, hval⟩ := bfs_iter_entry s hs n kv hkv
    have hco : coords kv.2 = coords c :=
      to_string_inj kv.2 c hval hc (by rw [← hkey, hk])
    have hr := (bfs_sound s hs n).1 kv hkv
    rwa [hco] at hr
  · rintro ⟨q, hch, hbd, hlast, hlen⟩
    have hp := path_reached s hs q hch hbd
    rw [hlast, to_string_coords] at hp
    exact bfs_iter_key_mono q.length n _ _ hlen hp

theorem add_previous_prevs_nodup (l p : ChessboardLocation)
    (h : (l.get_previous_locations.map ChessboardLocation.to_string).Nodup) :
    ((l.add_previous p).get_previous_locations.map ChessboardLocation.to_string).Nodup := by
  rw [add_previous_prevs]
  split_ifs with hany
  · have hsame : (l.get_previous_locations.map
        (fun q => if q.to_string == p.to_string then p else q)).map
          ChessboardLocation.to_string =
        l.get_previous_locations.map ChessboardLocation.to_string := by
    -- replacing an entry by one with the same string leaves the string list unchanged
      rw [List.map_map]
      apply List.map_congr_left
      intro q hq
      simp only [Function.comp]
      by_cases he : q.to_string == p.to_string
      · rw [if_pos he]
        exact (beq_iff_eq.mp he).symm
      · rw [if_neg he]
    rw [hsame]
    exact h
  · rw [List.map_append, List.map_singleton, List.nodup_append]
    refine ⟨h, List.nodup_singleton _, ?_⟩
    intro a ha hb
    simp only [List.mem_singleton] at hb
    subst hb
    rw [Bool.not_eq_true, List.any_eq_false] at hany
    obtain ⟨q, hq, hqe⟩ := List.mem_map.mp ha
    have := hany q hq
    rw [hqe] at this
    simp at this

theorem pnm_prevs_nodup (reached : List (String × ChessboardLocation))
    (ls : List ChessboardLocation) :
    ∀ kv ∈ HorseMoves.possible_next_moves reached ls,
      (kv.2.get_previous_locations.map ChessboardLocation.to_string).Nodup := by
  unfold HorseMoves.possible_next_moves
  refine @List.foldlRecOn _ _
    (fun (nm : List (String × ChessboardLocation)) => ∀ kv ∈ nm,
      (kv.2.get_previous_locations.map ChessboardLocation.to_string).Nodup)
    ls _ [] ?_ ?_
  · intro kv hkv
    exact absurd hkv (List.not_mem_nil kv)
  · intro nm hnm sl hsl
    refine @List.foldlRecOn _ _
      (fun (nm : List (String × ChessboardLocation)) => ∀ kv ∈ nm,
        (kv.2.get_previous_locations.map ChessboardLocation.to_string).Nodup)
      (HorseMoves.candidate_coordinates sl) _ nm ?_ ?_
    · exact hnm
    · intro nm2 hnm2 c hc kv hkv
      simp only [HorseMoves.process_candidate] at hkv
      split_ifs at hkv with hval hreach hfresh
      · exact hnm2 kv hkv
      · obtain ⟨kv0, hkv0, hkve⟩ := List.mem_map.mp hkv
        by_cases he : kv0.1 == (ChessboardLocation.mk c.1 c.2
            (LocationList.ofList [sl])).to_string
        · rw [if_pos he] at hkve
          subst hkve
          exact add_previous_prevs_nodup kv0.2 sl (hnm2 kv0 hkv0)
        · rw [if_neg he] at hkve
          exact hkve ▸ hnm2 kv0 hkv0
      · rcases List.mem_append.mp hkv with hold | hnew
        · exact hnm2 kv hold
        · simp only [List.mem_singleton] at hnew
          subst hnew
          simp [ChessboardLocation.get_previous_locations]
      · exact hnm2 kv hkv

theorem mem_add_previous_of_mem (l p u : ChessboardLocation)
    (hu : u ∈ l.get_previous_locations)
    (himp : u.to_string = p.to_string → u = p) :
    u ∈ (l.add_previous p).get_previous_locations := by
  rw [add_previous_prevs]
  split_ifs with hany
  · rw [List.mem_map]
    refine ⟨u, hu, ?_⟩
    by_cases he : u.to_string == p.to_string
    · rw [if_pos he]
      exact (himp (beq_iff_eq.mp he)).symm
    · rw [if_neg he]
  · exact List.mem_append_left _ hu

theorem process_candidate_preserves (reached : List (String × ChessboardLocation))
    (k : String) (u sl : ChessboardLocation)
    (himp : sl.to_string = u.to_string → sl = u)
    (nm : List (String × ChessboardLocation)) (c : Int × Int)
    (hQ : ∃ v, (k, v) ∈ nm ∧ u ∈ v.get_previous_locations) :
    ∃ v, (k, v) ∈ HorseMoves.process_candidate reached sl nm c ∧
      u ∈ v.get_previous_locations := by
  obtain ⟨v, hv, hu⟩ := hQ
  simp only [HorseMoves.process_candidate]
  split_ifs with hval hreach hfresh
  · exact ⟨v, hv, hu⟩
  · by_cases he : (k == (ChessboardLocation.mk c.1 c.2
        (LocationList.ofList [sl])).to_string) = true
    · refine ⟨v.add_previous sl, ?_, ?_⟩
      · have hm := List.mem_map_of_mem (fun kv =>
          if kv.1 == (ChessboardLocation.mk c.1 c.2
            (LocationList.ofList [sl])).to_string
          then (kv.1, kv.2.add_previous sl) else kv) hv
        simpa [he] using hm
      · exact mem_add_previous_of_mem v sl u hu (fun h => (himp h.symm).symm)
    · refine ⟨v, ?_, hu⟩
      have hm := List.mem_map_of_mem (fun kv =>
        if kv.1 == (ChessboardLocation.mk c.1 c.2
          (LocationList.ofList [sl])).to_string
        then (kv.1, kv.2.add_previous sl) else kv) hv
      simpa [he] using hm
  · exact ⟨v, List.mem_append_left _ hv, hu⟩
  · exact ⟨v, hv, hu⟩

theorem fold_candidates_preserves (reached : List (String × ChessboardLocation))
    (k : String) (u sl : ChessboardLocation)
    (himp : sl.to_string = u.to_string → sl = u)
    (cs : List (Int × Int)) (nm : List (String × ChessboardLocation))
    (hQ : ∃ v, (k, v) ∈ nm ∧ u ∈ v.get_previous_locations) :
    ∃ v, (k, v) ∈ cs.foldl
        (fun nm c => HorseMoves.process_candidate reached sl nm c) nm ∧
      u ∈ v.get_previous_locations := by
  refine @List.foldlRecOn _ _
    (fun (nm : List (String × ChessboardLocation)) =>
      ∃ v, (k, v) ∈ nm ∧ u ∈ v.get_previous_locations)
    cs _ nm hQ ?_
  intro nm2 hnm2 c hc
  exact process_candidate_preserves reached k u sl himp nm2 c hnm2

theorem fold_frontier_preserves (reached : List (String × ChessboardLocation))
    (k : String) (u : ChessboardLocation) (l2 : List ChessboardLocation)
    (himp2 : ∀ sl ∈ l2, sl.to_string = u.to_string → sl = u)
    (nm : List (String × ChessboardLocation))
    (hQ : ∃ v, (k, v) ∈ nm ∧ u ∈ v.get_previous_locations) :
    ∃ v, (k, v) ∈ l2.foldl
        (fun nm sl => (HorseMoves.candidate_coordinates sl).foldl
          (fun nm c => HorseMoves.process_candidate reached sl nm c) nm) nm ∧
      u ∈ v.get_previous_locations := by
  refine @List.foldlRecOn _ _
    (fun (nm : List (String × ChessboardLocation)) =>
      ∃ v, (k, v) ∈ nm ∧ u ∈ v.get_previous_locations)
    l2 _ nm hQ ?_
  intro nm2 hnm2 sl hsl
  exact fold_candidates_preserves reached k u sl (himp2 sl hsl) _ nm2 hnm2

theorem pnm_establish (reached : List (String × ChessboardLocation))
    (u : ChessboardLocation) (A : List (String × ChessboardLocation))
    (k0 : String) (v0 : ChessboardLocation)
    (hval : v0.is_valid = true) (hkey : k0 = v0.to_string)
    (hfreshk : HorseMoves.key_mem reached k0 = false) :
    ∃ v, (k0, v) ∈ HorseMoves.process_candidate reached u A (coords v0) ∧
      u ∈ v.get_previous_locations := by
  have hvalid2 : (ChessboardLocation.mk (coords v0).1 (coords v0).2
      (LocationList.ofList [u])).is_valid = true := by
    rw [is_valid_iff]
    simpa using (is_valid_iff v0).mp hval
  have hstr : (ChessboardLocation.mk (coords v0).1 (coords v0).2
      (LocationList.ofList [u])).to_string = k0 := by
    rw [to_string_mk_prev, to_string_coords, ← hkey]
  simp only [HorseMoves.process_candidate]
  split_ifs with hreach2 hfresh2
  · rw [hstr, hfreshk] at hreach2
    exact Bool.noConfusion hreach2
  · obtain ⟨kv1, hkv1, hkv1k⟩ := (key_mem_iff _ _).mp hfresh2
    refine ⟨kv1.2.add_previous u, ?_, self_mem_add_previous kv1.2 u⟩
    rw [List.mem_map]
    refine ⟨kv1, hkv1, ?_⟩
    rw [if_pos (by rw [hkv1k]; exact beq_self_eq_true _)]
    rw [hkv1k, hstr]
  · refine ⟨ChessboardLocation.mk (coords v0).1 (coords v0).2
      (LocationList.ofList [u]), ?_, ?_⟩
    · rw [← hstr]
      exact List.mem_append_right _ (List.mem_singleton_self _)
    · simp [ChessboardLocation.get_previous_locations]

theorem pnm_prevs_mem (reached : List (String × ChessboardLocation))
    (ls : List ChessboardLocation)
    (hnd : (ls.map ChessboardLocation.to_string).Nodup) :
    ∀ kv ∈ HorseMoves.possible_next_moves reached ls,
      ∀ u ∈ ls, knight_adj (coords u) (coords kv.2) →
        u ∈ kv.2.get_previous_locations := by
  rintro ⟨k0, v0⟩ hkv u hu hadj
  obtain ⟨hkey, hval, -, -⟩ := pnm_entry reached ls ⟨k0, v0⟩ hkv
  have hfreshk := (pnm_keys reached ls).2 ⟨k0, v0⟩ hkv
  have hndk := (pnm_keys reached ls).1
  obtain ⟨l1, l2, rfl⟩ := List.append_of_mem hu
  have hndtail : ∀ sl ∈ l2, sl.to_string = u.to_string → sl = u := by
    rw [List.map_append] at hnd
    have h2 := List.Nodup.of_append_right hnd
    rw [List.map_cons, List.nodup_cons] at h2
    intro sl hsl he
    exact absurd (he ▸ List.mem_map_of_mem ChessboardLocation.to_string hsl) h2.1
  have hc : coords v0 ∈ HorseMoves.candidate_coordinates u := by
    rw [candidate_coordinates_eq]
    exact hadj
  obtain ⟨cs1, cs2, hcs⟩ := List.append_of_mem hc
  have hQB := pnm_establish reached u
    (cs1.foldl (fun nm c => HorseMoves.process_candidate reached u nm c)
      (l1.foldl
        (fun nm sl => (HorseMoves.candidate_coordinates sl).foldl
          (fun nm c => HorseMoves.process_candidate reached sl nm c) nm)
        []))
    k0 v0 hval hkey hfreshk
  have hQ1 := fold_candidates_preserves reached k0 u u (fun _ => rfl) cs2 _ hQB
  have hQ2 := fold_frontier_preserves reached k0 u l2 hndtail _ hQ1
  have hsplit : HorseMoves.possible_next_moves reached (l1 ++ u :: l2) =
      l2.foldl
        (fun nm sl => (HorseMoves.candidate_coordinates sl).foldl
          (fun nm c => HorseMoves.process_candidate reached sl nm c) nm)
        (cs2.foldl (fun nm c => HorseMoves.process_candidate reached u nm c)
          (HorseMoves.process_candidate reached u
            (cs1.foldl (fun nm c => HorseMoves.process_candidate reached u nm c)
              (l1.foldl
                (fun nm sl => (HorseMoves.candidate_coordinates sl).foldl
                  (fun nm c => HorseMoves.process_candidate reached sl nm c) nm)
                []))
            (coords v0))) := by
    unfold HorseMoves.possible_next_moves
    rw [List.foldl_append, List.foldl_cons, hcs, List.foldl_append, List.foldl_cons]
  rw [← hsplit] at hQ2
  obtain ⟨v, hvmem, hvu⟩ := hQ2
  have hg1 := dict_get_of_mem _ k0 v hndk hvmem
  have hg2 := dict_get_of_mem _ k0 v0 hndk hkv
  rw [hg1] at hg2
  have hvv : v = v0 := by
    injection hg2
  exact hvv ▸ hvu

theorem to_string_eq_of_coords (a b : ChessboardLocation) (h : coords a = coords b) :
    a.to_string = b.to_string := by
  rw [← to_string_coords a, ← to_string_coords b, h]

theorem route_coords_append (r : List ChessboardLocation) (l : ChessboardLocation) :
    route_coords (r ++ [l]) = route_coords r ++ [coords l] := by
  simp [route_coords]

theorem chain_concat_last (A : List (Int × Int)) (c : Int × Int)
    (hA : List.Chain' knight_adj A)
    (h : ∀ a, A.getLast? = some a → knight_adj a c) :
    List.Chain' knight_adj (A ++ [c]) := by
  rw [List.chain'_append]
  refine ⟨hA, List.chain'_singleton c, ?_⟩
  intro x hx y hy
  simp only [List.head?_cons, Option.mem_def, Option.some.injEq] at hy
  subst hy
  exact h x (Option.mem_def.mp hx)

theorem frontier_keys_nodup (s : ChessboardLocation) (n : Nat) :
    (((HorseMoves.bfs_iter n (HorseMoves.bfs_start s)).2).map
      ChessboardLocation.to_string).Nodup := by
  rcases n with _ | m
  · simp [HorseMoves.bfs_iter, HorseMoves.bfs_start]
  · rw [bfs_iter_succ_back, bfs_step_frontier, List.map_map]
    have h3 : (HorseMoves.possible_next_moves
        (HorseMoves.bfs_iter m (HorseMoves.bfs_start s)).1
        (HorseMoves.bfs_iter m (HorseMoves.bfs_start s)).2).map
          (ChessboardLocation.to_string ∘ Prod.snd) =
        (HorseMoves.possible_next_moves
          (HorseMoves.bfs_iter m (HorseMoves.bfs_start s)).1
          (HorseMoves.bfs_iter m (HorseMoves.bfs_start s)).2).map Prod.fst := by
      apply List.map_congr_left
      intro kv hkv
      simp only [Function.comp]
      exact ((pnm_entry _ _ kv hkv).1).symm
    rw [h3]
    exact (pnm_keys _ _).1

theorem square_in_frontier (s : ChessboardLocation) (hs : s.is_valid = true)
    (c : ChessboardLocation) (hc : c.is_valid = true) (n : Nat)
    (hkeyn : HorseMoves.key_mem
      (HorseMoves.bfs_iter n (HorseMoves.bfs_start s)).1 c.to_string = true)
    (hfresh : n = 0 ∨ HorseMoves.key_mem
      (HorseMoves.bfs_iter (n - 1) (HorseMoves.bfs_start s)).1 c.to_string = false) :
    ∃ p ∈ (HorseMoves.bfs_iter n (HorseMoves.bfs_start s)).2,
      coords p = coords c := by
  rcases n with _ | m
  · rw [key_mem_iff] at hkeyn
    obtain ⟨kv, hkv, hk⟩ := hkeyn
    simp only [HorseMoves.bfs_iter, HorseMoves.bfs_start, List.mem_singleton] at hkv
    subst hkv
    refine ⟨s, ?_, to_string_inj s c hs hc hk⟩
    simp [HorseMoves.bfs_iter, HorseMoves.bfs_start]
  · rcases hfresh with h0 | hfresh
    · exact Nat.noConfusion h0
    simp only [Nat.add_sub_cancel] at hfresh
    rw [bfs_iter_succ_back, bfs_step_reached, key_mem_append, hfresh,
      Bool.false_or] at hkeyn
    obtain ⟨kv, hkv, hk⟩ := (key_mem_iff _ _).mp hkeyn
    obtain ⟨hkey, hval, -, -⟩ := pnm_entry _ _ kv hkv
    refine ⟨kv.2, ?_, ?_⟩
    · rw [bfs_iter_succ_back, bfs_step_frontier]
      exact List.mem_map_of_mem Prod.snd hkv
    · exact to_string_inj kv.2 c hval hc (by rw [← hkey, hk])

/-- Full enumeration invariant of the BFS frontiers: every route of a depth-`n`
frontier square is an on-board knight chain, the coordinate sequences of its
routes are pairwise distinct, and every on-board knight chain of `n` moves from
the start to that square occurs among them. -/
theorem frontier_enum (x y : Int)
    (hs : (ChessboardLocation.mk x y .nil).is_valid = true) :
    ∀ n : Nat, ∀ l ∈ (HorseMoves.bfs_iter n
        (HorseMoves.bfs_start (ChessboardLocation.mk x y .nil))).2,
      (∀ r ∈ l.list_routes, List.Chain' knight_adj (route_coords r) ∧
        ∀ c ∈ route_coords r, on_board c) ∧
      (l.list_routes.map route_coords).Nodup ∧
      (∀ q : List (Int × Int),
        List.Chain' knight_adj (((x : Int), (y : Int)) :: q) →
        (∀ c ∈ q, on_board c) → q.length = n →
        (((x : Int), (y : Int)) :: q).getLastD (0, 0) = coords l →
        (((x : Int), (y : Int)) :: q) ∈ l.list_routes.map route_coords) := by
  intro n
  induction n with
  | zero =>
    intro l hl
    simp only [HorseMoves.bfs_iter, HorseMoves.bfs_start, List.mem_singleton] at hl
    subst hl
    have hroutes : (ChessboardLocation.mk x y .nil).list_routes =
        [[ChessboardLocation.mk x y .nil]] := list_routes_of_no_prev _ rfl
    refine ⟨?_, ?_, ?_⟩
    · intro r hr
      rw [hroutes] at hr
      simp only [List.mem_singleton] at hr
      subst hr
      constructor
      · simp [route_coords]
      · intro c hc
        simp only [route_coords, List.map_cons, List.map_nil,
          List.mem_singleton] at hc
        subst hc
        simpa using (is_valid_iff _).mp hs
    · rw [hroutes]
      simp
    · intro q hch hbd hlen hlast
      have hq : q = [] := List.eq_nil_of_length_eq_zero hlen
      subst hq
      rw [hroutes]
      simp [route_coords]
  | succ n ih =>
    intro l hl
    rw [bfs_iter_succ_back, bfs_step_frontier] at hl
    obtain ⟨kv, hkv, rfl⟩ := List.mem_map.mp hl
    obtain ⟨hkey, hval, hne, hprev⟩ := pnm_entry _ _ kv hkv
    have hfreshkv := (pnm_keys _ _).2 kv hkv
    have hndF := frontier_keys_nodup (ChessboardLocation.mk x y .nil) n
    have hmemprev := pnm_prevs_mem _ _ hndF kv hkv
    have hpnodup := pnm_prevs_nodup _ _ kv hkv
    have hroutes := list_routes_of_prev kv.2 hne
    have hsound : ∀ r ∈ kv.2.list_routes,
        List.Chain' knight_adj (route_coords r) ∧
        ∀ c ∈ route_coords r, on_board c := by
      intro r hr
      rcases (mem_list_routes kv.2 r).mp hr with ⟨hnil, -⟩ | ⟨p, hp, r0, hr0, rfl⟩
      · exact absurd hnil hne
      obtain ⟨hpF, hadj⟩ := hprev p hp
      obtain ⟨hch0, hbd0⟩ := (ih p hpF).1 r0 hr0
      have hlast0 : (route_coords r0).getLast? = some (coords p) := by
        rw [route_coords, List.getLast?_map, route_getLast p r0 hr0]
        rfl
      constructor
      · rw [route_coords_append]
        refine chain_concat_last (route_coords r0) (coords kv.2) hch0 ?_
        intro a ha
        rw [hlast0] at ha
        injection ha with ha2
        rw [← ha2]
        exact hadj
      · intro c hc
        rw [route_coords_append] at hc
        rcases List.mem_append.mp hc with h1 | h1
        · exact hbd0 c h1
        · simp only [List.mem_singleton] at h1
          subst h1
          exact (is_valid_iff _).mp hval
    have hmapeq : kv.2.list_routes.map route_coords =
        kv.2.get_previous_locations.flatMap
          (fun p => (p.list_routes.map route_coords).map
            (fun q0 => q0 ++ [coords kv.2])) := by
      rw [hroutes]
      simp only [List.map_flatMap, List.map_map]
      have hfun : ∀ p : ChessboardLocation,
          p.list_routes.map (route_coords ∘ (fun route => route ++ [kv.2])) =
          p.list_routes.map ((fun q0 => q0 ++ [coords kv.2]) ∘ route_coords) := by
        intro p
        apply List.map_congr_left
        intro r0 hr0
        simp only [Function.comp]
        exact route_coords_append r0 kv.2
      exact congrArg (fun g => kv.2.get_previous_locations.flatMap g) (funext hfun)
    have hnodup : (kv.2.list_routes.map route_coords).Nodup := by
      rw [hmapeq, List.nodup_flatMap]
      constructor
      · intro p hp
        exact List.Nodup.map (List.append_left_injective _) ((ih p (hprev p hp).1).2.1)
      · have hpw : kv.2.get_previous_locations.Pairwise
            (fun a b => a.to_string ≠ b.to_string) := by
          have h4 := hpnodup
          rw [List.Nodup, List.pairwise_map] at h4
          exact h4
        refine hpw.imp ?_
        intro a b hne2
        intro qq hq1 hq2
        obtain ⟨qa, hqa, rfl⟩ := List.mem_map.mp hq1
        obtain ⟨qb, hqb, hqe⟩ := List.mem_map.mp hq2
        have hqq : qb = qa := List.append_left_injective _ hqe
        subst hqq
        obtain ⟨ra, hra, hrae⟩ := List.mem_map.mp hqa
        obtain ⟨rb, hrb, hrbe⟩ := List.mem_map.mp hqb
        have hla : (route_coords ra).getLast? = some (coords a) := by
          rw [route_coords, List.getLast?_map, route_getLast a ra hra]
          rfl
        have hlb : (route_coords rb).getLast? = some (coords b) := by
          rw [route_coords, List.getLast?_map, route_getLast b rb hrb]
          rfl
        rw [hrbe, ← hrae, hla] at hlb
        injection hlb with hco
        exact hne2 (to_string_eq_of_coords a b hco)
    refine ⟨hsound, hnodup, ?_⟩
    intro q hch hbd hlen hlast
    obtain ⟨q2, clast, rfl⟩ : ∃ q2 clast, q = q2 ++ [clast] := by
      rcases List.eq_nil_or_concat q with h0 | ⟨q2, b, hq⟩
      · rw [h0] at hlen
        simp at hlen
      · exact ⟨q2, b, by rw [hq, List.concat_eq_append]⟩
    have hclast : clast = coords kv.2 := by
      rw [show (((x : Int), (y : Int)) :: (q2 ++ [clast])) =
        (((x : Int), (y : Int)) :: q2) ++ [clast] from by rw [List.cons_append],
        List.getLastD_concat] at hlast
      exact hlast
    have hsplit2 : List.Chain' knight_adj (((x : Int), (y : Int)) :: q2) ∧
        knight_adj ((((x : Int), (y : Int)) :: q2).getLastD (0, 0)) clast := by
      rw [show (((x : Int), (y : Int)) :: (q2 ++ [clast])) =
        (((x : Int), (y : Int)) :: q2) ++ [clast] from by
          rw [List.cons_append]] at hch
      rw [List.chain'_append] at hch
      refine ⟨hch.1, ?_⟩
      have hl2 : (((x : Int), (y : Int)) :: q2).getLast? =
          some ((((x : Int), (y : Int)) :: q2).getLastD (0, 0)) := by
        rw [List.getLastD_eq_getLast?,
          List.getLast?_eq_getLast _ (List.cons_ne_nil _ q2)]
        rfl
      exact hch.2.2 _ hl2 clast rfl
    obtain ⟨hch2, hadj2⟩ := hsplit2
    obtain ⟨d, hd⟩ : ∃ d, (((x : Int), (y : Int)) :: q2).getLastD (0, 0) = d :=
      ⟨_, rfl⟩
    rw [hd] at hadj2
    have hdboard : on_board d := by
      have hmemd : d ∈ ((x : Int), (y : Int)) :: q2 := by
        rw [← hd, List.getLastD_eq_getLast?,
          List.getLast?_eq_getLast _ (List.cons_ne_nil _ q2)]
        exact List.getLast_mem _
      rcases List.mem_cons.mp hmemd with he | hq
      · subst he
        simpa using (is_valid_iff _).mp hs
      · exact hbd d (List.mem_append_left _ hq)
    have hbd2 : ∀ c ∈ q2, on_board c := fun c hc =>
      hbd c (List.mem_append_left _ hc)
    have hlen2 : q2.length = n := by
      rw [List.length_append, List.length_singleton] at hlen
      omega
    have hlboard : on_board (coords kv.2) := (is_valid_iff _).mp hval
    have hdval : (ChessboardLocation.mk d.1 d.2 .nil).is_valid = true := by
      rw [is_valid_iff]
      simpa using hdboard
    have hreachd : reach_path ((x : Int), (y : Int)) d n :=
      ⟨q2, hch2, hbd2, hd, le_of_eq hlen2⟩
    have hkeyd : HorseMoves.key_mem (HorseMoves.bfs_iter n
        (HorseMoves.bfs_start (ChessboardLocation.mk x y .nil))).1
        (ChessboardLocation.mk d.1 d.2 .nil).to_string = true := by
      rw [key_reach _ hs _ hdval n]
      simpa using hreachd
    have hfreshd : n = 0 ∨ HorseMoves.key_mem (HorseMoves.bfs_iter (n - 1)
        (HorseMoves.bfs_start (ChessboardLocation.mk x y .nil))).1
        (ChessboardLocation.mk d.1 d.2 .nil).to_string = false := by
      rcases Nat.eq_zero_or_pos n with h0 | hpos
      · exact Or.inl h0
      · right
        by_contra hcon
        rw [Bool.not_eq_false] at hcon
        rw [key_reach _ hs _ hdval (n - 1)] at hcon
        obtain ⟨q3, hch3, hbd3, hlast3, hlen3⟩ := hcon
        obtain ⟨hch4, hlast4⟩ := chain_snoc _ (coords kv.2) q3 hch3 (by
          rw [hlast3]
          have hco : coords (ChessboardLocation.mk d.1 d.2 .nil) = d := by simp
          rw [hco]
          rw [hclast] at hadj2
          exact hadj2)
        have hreachl : reach_path (coords (ChessboardLocation.mk x y .nil))
            (coords kv.2) n := by
          refine ⟨q3 ++ [coords kv.2], hch4, ?_, hlast4, ?_⟩
          · intro c hc
            rcases List.mem_append.mp hc with h1 | h1
            · exact hbd3 c h1
            · simp only [List.mem_singleton] at h1
              subst h1
              exact hlboard
          · simp only [List.length_append, List.length_singleton]
            omega
        have hkeyl : HorseMoves.key_mem (HorseMoves.bfs_iter n
            (HorseMoves.bfs_start (ChessboardLocation.mk x y .nil))).1
            kv.2.to_string = true := by
          rw [key_reach _ hs kv.2 hval n]
          exact hreachl
        rw [← hkey, hfreshkv] at hkeyl
        exact Bool.noConfusion hkeyl
    obtain ⟨p, hpF, hpco⟩ := square_in_frontier (ChessboardLocation.mk x y .nil) hs
      (ChessboardLocation.mk d.1 d.2 .nil) hdval n hkeyd hfreshd
    have hpd : coords p = d := by simpa using hpco
    have hpprev : p ∈ kv.2.get_previous_locations := by
      refine hmemprev p hpF ?_
      rw [hpd]
      rw [hclast] at hadj2
      exact hadj2
    have hmem0 := (ih p hpF).2.2 q2 hch2 hbd2 hlen2 (by rw [hd, hpd])
    obtain ⟨r0, hr0, hrc0⟩ := List.mem_map.mp hmem0
    have hrmem : r0 ++ [kv.2] ∈ kv.2.list_routes :=
      (mem_list_routes kv.2 _).mpr (Or.inr ⟨p, hpprev, r0, hr0, rfl⟩)
    refine List.mem_map.mpr ⟨r0 ++ [kv.2], hrmem, ?_⟩
    rw [route_coords_append, hrc0, hclast]
    rw [List.cons_append]

theorem solve_63_some (x1 y1 x2 y2 : Int)
    (h1 : (ChessboardLocation.mk x1 y1 .nil).is_valid = true)
    (h2 : (ChessboardLocation.mk x2 y2 .nil).is_valid = true) :
    ∃ st, HorseMoves.solve 63
      (HorseMoves.init (ChessboardLocation.mk x1 y1 .nil)
        (ChessboardLocation.mk x2 y2 .nil)) = some st := by
  have hreach : HorseMoves.key_mem
      (HorseMoves.bfs_iter 63
        ((HorseMoves.init (ChessboardLocation.mk x1 y1 .nil)
          (ChessboardLocation.mk x2 y2 .nil)).reached,
         [ChessboardLocation.mk x1 y1 .nil])).1
      (HorseMoves.init (ChessboardLocation.mk x1 y1 .nil)
        (ChessboardLocation.mk x2 y2 .nil)).finish_string = true :=
    target_reached_63 x1 y1 x2 y2 h1 h2
  obtain ⟨j, st, hj, hfind, -, -, -, -, -, -⟩ :=
    find_returns 63 63
      (HorseMoves.init (ChessboardLocation.mk x1 y1 .nil)
        (ChessboardLocation.mk x2 y2 .nil))
      [ChessboardLocation.mk x1 y1 .nil] (le_refl 63) hreach
  have hsol : st.solved = true := find_some_solved 63 _ _ st hfind
  have hgets : (HorseMoves.dict_get st.reached st.finish_string).isSome = true := by
    have h5 : HorseMoves.key_mem st.reached st.finish_string = true := hsol
    rw [key_mem_isSome_find] at h5
    simpa [HorseMoves.dict_get] using h5
  obtain ⟨final, hfin⟩ := Option.isSome_iff_exists.mp hgets
  have hrun : (HorseMoves.init (ChessboardLocation.mk x1 y1 .nil)
      (ChessboardLocation.mk x2 y2 .nil)).run_search 63 = some st := hfind
  exact ⟨{ st with move_tree := HorseMoves.prune_loop [final] [] },
    by simp [HorseMoves.solve, hrun, hfin]⟩

theorem key_mem_swap (x1 y1 x2 y2 : Int)
    (h1 : (ChessboardLocation.mk x1 y1 .nil).is_valid = true)
    (h2 : (ChessboardLocation.mk x2 y2 .nil).is_valid = true) (n : Nat)
    (h : HorseMoves.key_mem (HorseMoves.bfs_iter n
      (HorseMoves.bfs_start (ChessboardLocation.mk x1 y1 .nil))).1
      (ChessboardLocation.mk x2 y2 .nil).to_string = true) :
    HorseMoves.key_mem (HorseMoves.bfs_iter n
      (HorseMoves.bfs_start (ChessboardLocation.mk x2 y2 .nil))).1
      (ChessboardLocation.mk x1 y1 .nil).to_string = true := by
  rw [key_reach _ h1 _ h2 n] at h
  rw [key_reach _ h2 _ h1 n]
  exact reach_path_symm _ _ ((is_valid_iff _).mp h1) ((is_valid_iff _).mp h2) n h

/-- The coordinate sequences of the routes of the square stored under the
target key are exactly the on-board knight chains of the shortest length from
start to target coordinates, without duplicates. -/
theorem run_routes_char (x1 y1 x2 y2 : Int)
    (h1 : (ChessboardLocation.mk x1 y1 .nil).is_valid = true)
    (h2 : (ChessboardLocation.mk x2 y2 .nil).is_valid = true)
    (j : Nat) (final : ChessboardLocation)
    (hle : ∀ i < j, HorseMoves.key_mem
      (HorseMoves.bfs_iter i
        (HorseMoves.bfs_start (ChessboardLocation.mk x1 y1 .nil))).1
      (ChessboardLocation.mk x2 y2 .nil).to_string = false)
    (hget : HorseMoves.dict_get
      (HorseMoves.bfs_iter j
        (HorseMoves.bfs_start (ChessboardLocation.mk x1 y1 .nil))).1
      (ChessboardLocation.mk x2 y2 .nil).to_string = some final) :
    (final.list_routes.map route_coords).Nodup ∧
    ∀ qq : List (Int × Int),
      qq ∈ final.list_routes.map route_coords ↔
        (List.Chain' knight_adj qq ∧ (∀ c ∈ qq, on_board c) ∧
         qq.head? = some ((x1 : Int), (y1 : Int)) ∧
         qq.getLast? = some ((x2 : Int), (y2 : Int)) ∧
         qq.length = j + 1) := by
  have hfr := final_in_frontier x1 y1 _ j hle final hget
  obtain ⟨hsound, hnodup, hcomp⟩ := frontier_enum x1 y1 h1 j final hfr
  obtain ⟨hrl, hrh⟩ := final_location_routes x1 y1 _ j hle final hget
  have hmem := dict_get_mem _ _ _ hget
  obtain ⟨hkey, hval⟩ := bfs_iter_entry (ChessboardLocation.mk x1 y1 .nil) h1 j _ hmem
  have hco : coords final = ((x2 : Int), (y2 : Int)) := by
    have := to_string_inj final (ChessboardLocation.mk x2 y2 .nil) hval h2 hkey.symm
    simpa using this
  refine ⟨hnodup, ?_⟩
  intro qq
  constructor
  · intro hqq
    obtain ⟨r, hr, rfl⟩ := List.mem_map.mp hqq
    obtain ⟨hch, hbd⟩ := hsound r hr
    refine ⟨hch, hbd, ?_, ?_, ?_⟩
    · rcases hr0 : r with _ | ⟨a, r'⟩
      · exact absurd hr0 (route_ne_nil final r hr)
      · have hh := hrh r hr
        rw [hr0] at hh
        simp only [List.head?_cons, Option.some.injEq] at hh
        subst hh
        rfl
    · rw [route_coords, List.getLast?_map, route_getLast final r hr]
      simp [hco]
    · rw [route_coords, List.length_map]
      exact hrl r hr
  · rintro ⟨hch, hbd, hhead, hlast, hlen⟩
    rcases hq0 : qq with _ | ⟨a, q'⟩
    · rw [hq0] at hhead
      exact Option.noConfusion hhead
    rw [hq0] at hch hbd hhead hlast hlen
    simp only [List.head?_cons, Option.some.injEq] at hhead
    subst hhead
    have hlen2 : q'.length = j := by
      simp only [List.length_cons] at hlen
      omega
    have hbd2 : ∀ c ∈ q', on_board c := fun c hc => hbd c (List.mem_cons_of_mem _ hc)
    have hlastD : (( ((x1 : Int), (y1 : Int))) :: q').getLastD (0, 0) = coords final := by
      rw [List.getLastD_eq_getLast?, hlast, hco]
      rfl
    exact hcomp q' hch hbd2 hlen2 hlastD

theorem chain_facts_reverse (a b : Int × Int) (n : Nat) (qq : List (Int × Int))
    (h : List.Chain' knight_adj qq ∧ (∀ c ∈ qq, on_board c) ∧
      qq.head? = some a ∧ qq.getLast? = some b ∧ qq.length = n + 1) :
    List.Chain' knight_adj qq.reverse ∧ (∀ c ∈ qq.reverse, on_board c) ∧
      qq.reverse.head? = some b ∧ qq.reverse.getLast? = some a ∧
      qq.reverse.length = n + 1 := by
  obtain ⟨hch, hbd, hhead, hlast, hlen⟩ := h
  refine ⟨?_, ?_, ?_, ?_, ?_⟩
  · rw [List.chain'_reverse]
    exact chain'_imp_of_mem _
      (fun p hp q hq hpq => knight_adj_symm p q (hbd p hp) (hbd q hq) hpq) hch
  · intro c hc
    exact hbd c (List.mem_reverse.mp hc)
  · rw [List.head?_reverse]
    exact hlast
  · rw [List.getLast?_reverse]
    exact hhead
  · rw [List.length_reverse]
    exact hlen

/-- C9: for every pair of valid squares, running the engine start→target and
target→start yields the same number of routes, the same move-tree depth, and
routes of the same length (equal move counts) in both runs. -/
theorem C9_symmetry (x1 y1 x2 y2 : Int)
    (h1 : (ChessboardLocation.mk x1 y1 .nil).is_valid = true)
    (h2 : (ChessboardLocation.mk x2 y2 .nil).is_valid = true) :
    ∃ st1 st2 routes1 routes2,
      HorseMoves.solve 63 (HorseMoves.init (ChessboardLocation.mk x1 y1 .nil)
        (ChessboardLocation.mk x2 y2 .nil)) = some st1 ∧
      HorseMoves.solve 63 (HorseMoves.init (ChessboardLocation.mk x2 y2 .nil)
        (ChessboardLocation.mk x1 y1 .nil)) = some st2 ∧
      st1.get_solutions = some routes1 ∧
      st2.get_solutions = some routes2 ∧
      routes1.length = routes2.length ∧
      st1.move_tree.length = st2.move_tree.length ∧
      (∀ r1 ∈ routes1, ∀ r2 ∈ routes2, r1.length = r2.length) := by
  obtain ⟨st1, hs1⟩ := solve_63_some x1 y1 x2 y2 h1 h2
  obtain ⟨st2, hs2⟩ := solve_63_some x2 y2 x1 y1 h2 h1
  obtain ⟨j1, final1, L1, hre1, hfs1, hget1, hrl1, hrh1, hmt1, hlen1, hlast1,
    hlev1, hlink1, hnn1, hgs1, hle1⟩ := solve_spec x1 y1 x2 y2 63 st1 hs1
  obtain ⟨j2, final2, L2, hre2, hfs2, hget2, hrl2, hrh2, hmt2, hlen2, hlast2,
    hlev2, hlink2, hnn2, hgs2, hle2⟩ := solve_spec x2 y2 x1 y1 63 st2 hs2
  have hget1b : HorseMoves.dict_get (HorseMoves.bfs_iter j1
      (HorseMoves.bfs_start (ChessboardLocation.mk x1 y1 .nil))).1
      (ChessboardLocation.mk x2 y2 .nil).to_string = some final1 := by
    rw [← hre1, ← hfs1]
    exact hget1
  have hget2b : HorseMoves.dict_get (HorseMoves.bfs_iter j2
      (HorseMoves.bfs_start (ChessboardLocation.mk x2 y2 .nil))).1
      (ChessboardLocation.mk x1 y1 .nil).to_string = some final2 := by
    rw [← hre2, ← hfs2]
    exact hget2
  have hk1 := key_mem_of_get _ _ _ hget1b
  have hk2 := key_mem_of_get _ _ _ hget2b
  have hj12 : j1 = j2 := by
    rcases Nat.lt_trichotomy j1 j2 with hlt | heq | hgt
    · have hcon := hle2 j1 hlt
      rw [key_mem_swap x1 y1 x2 y2 h1 h2 j1 hk1] at hcon
      exact Bool.noConfusion hcon
    · exact heq
    · have hcon := hle1 j2 hgt
      rw [key_mem_swap x2 y2 x1 y1 h2 h1 j2 hk2] at hcon
      exact Bool.noConfusion hcon
  subst hj12
  obtain ⟨hnd1, hchar1⟩ := run_routes_char x1 y1 x2 y2 h1 h2 j1 final1 hle1 hget1b
  obtain ⟨hnd2, hchar2⟩ := run_routes_char x2 y2 x1 y1 h2 h1 j1 final2 hle2 hget2b
  have hAB : ∀ qq ∈ final1.list_routes.map route_coords,
      qq.reverse ∈ final2.list_routes.map route_coords := by
    intro qq hqq
    rw [hchar2]
    exact chain_facts_reverse ((x1 : Int), (y1 : Int)) ((x2 : Int), (y2 : Int))
      j1 qq ((hchar1 qq).mp hqq)
  have hBA : ∀ qq ∈ final2.list_routes.map route_coords,
      qq.reverse ∈ final1.list_routes.map route_coords := by
    intro qq hqq
    rw [hchar1]
    exact chain_facts_reverse ((x2 : Int), (y2 : Int)) ((x1 : Int), (y1 : Int))
      j1 qq ((hchar2 qq).mp hqq)
  have hperm : (final1.list_routes.map route_coords).Perm
      ((final2.list_routes.map route_coords).map List.reverse) := by
    rw [List.perm_ext_iff_of_nodup hnd1
      (List.Nodup.map List.reverse_injective hnd2)]
    intro qq
    constructor
    · intro hqq
      exact List.mem_map.mpr ⟨qq.reverse, hAB qq hqq, List.reverse_reverse qq⟩
    · intro hqq
      obtain ⟨qb, hqb, rfl⟩ := List.mem_map.mp hqq
      exact hBA qb hqb
  have hcount : final1.list_routes.length = final2.list_routes.length := by
    have hpl := hperm.length_eq
    simpa using hpl
  refine ⟨st1, st2, final1.list_routes, final2.list_routes, hs1, hs2, hgs1, hgs2,
    hcount, ?_, ?_⟩
  · rw [hmt1, hmt2, hlen1, hlen2]
  · intro r1 hr1 r2 hr2
    rw [hrl1 r1 hr1, hrl2 r2 hr2]

/-- C9 witness at the pair `A1`, `B3`. -/
theorem C9_symmetry_witness :
    (ChessboardLocation.mk 0 0 .nil).is_valid = true ∧
    (ChessboardLocation.mk 1 2 .nil).is_valid = true ∧
    ∃ st1 st2 routes1 routes2,
      HorseMoves.solve 63 (HorseMoves.init (ChessboardLocation.mk 0 0 .nil)
        (ChessboardLocation.mk 1 2 .nil)) = some st1 ∧
      HorseMoves.solve 63 (HorseMoves.init (ChessboardLocation.mk 1 2 .nil)
        (ChessboardLocation.mk 0 0 .nil)) = some st2 ∧
      st1.get_solutions = some routes1 ∧
      st2.get_solutions = some routes2 ∧
      routes1.length = routes2.length ∧
      st1.move_tree.length = st2.move_tree.length ∧
      (∀ r1 ∈ routes1, ∀ r2 ∈ routes2, r1.length = r2.length) :=
  ⟨by decide, by decide, C9_symmetry 0 0 1 2 (by decide) (by decide)⟩
